import Mathlib

/-!
IPv6 static route table (lwip `ip6_route_table.c`).

A shallow embedding of
`src/third_party/lwip/repo/lwip/src/core/ipv6/ip6_route_table.c`.

* The global array `static_route_table[LWIP_IPV6_NUM_ROUTE_ENTRIES]` is a
  `List ip6_route_entry`; its length is the capacity `N`, a build-time constant
  that a header outside the sources defines.  Every function takes the table as
  an argument and returns the new table.  The C code needs `N ≥ 1` (it reads
  slot `N - 1`) and its `s8_t` results hold every index only when `N ≤ 128`;
  the theorems that depend on either fact say so.
* `ip6_addr_t` is the list of the address bytes in memory order (16 of them for a
  well-formed address); `memcmp(a, b, n) == 0` compares the first `n` bytes.
  Every `memcmp` of the C file has `n = prefix_len / 8` for a prefix length that
  is stored in the table or equals a stored one, so `n ≤ 16` when the validity
  check bounds the length by 128.
* Pointers (`struct netif *`, the gateway `ip6_addr_t *`) are `Option Nat`:
  `none` is `NULL`, `some h` a non-null handle.
* `int` loop counters are `Nat`; the `s8_t` results go through `s8_of_int`.
* The macro `ip6_prefix_valid` lives in a header that is not part of the sources;
  the operations take the validity predicate as the parameter `valid`.
-/

namespace Ip6RouteTable

/-- The bytes of an `ip6_addr_t`, in memory order. -/
abbrev ip6_addr_t := List Nat

/-- The address written by `ip6_addr_set_zero`: sixteen zero bytes. -/
def ip6_addr_zero : ip6_addr_t := List.replicate 16 0

/-- The C `struct ip6_prefix`: an address and a prefix length in bits. -/
structure ip6_prefix where
  addr : ip6_addr_t
  prefix_len : Nat
  deriving DecidableEq, Repr

/-- The C `struct ip6_route_entry`; the field `pfx` is the C field `prefix`. -/
structure ip6_route_entry where
  pfx : ip6_prefix
  netif : Option Nat
  gateway : Option Nat
  deriving DecidableEq, Repr

/-- The C `err_t` values that `ip6_add_route_entry` returns. -/
inductive err_t where
  | ERR_OK
  | ERR_MEM
  | ERR_ARG
  deriving DecidableEq, Repr

/-- One slot of the zero-initialised static array. -/
def zero_entry : ip6_route_entry :=
  { pfx := { addr := ip6_addr_zero, prefix_len := 0 }, netif := none, gateway := none }

/-- The table at program start: `N` zero-initialised slots. -/
def init_table (N : Nat) : List ip6_route_entry := List.replicate N zero_entry

/-- Reading `static_route_table[i]`. -/
def slot (t : List ip6_route_entry) (i : Nat) : ip6_route_entry := t.getD i zero_entry

/-- The test `memcmp(a, b, n) == 0`. -/
def memcmp_eq (a b : ip6_addr_t) (n : Nat) : Bool := a.take n == b.take n

/-- Conversion of an `int` to `s8_t` (two's complement wrap). -/
def s8_of_int (i : Int) : Int := (i + 128) % 256 - 128

/-- A slot is occupied when its `netif` is not `NULL`. -/
def occupied (e : ip6_route_entry) : Bool := e.netif.isSome

/-- The condition of the scans in `ip6_add_route_entry` (lines 63-65) and
`ip6_remove_route_entry` (lines 111-113): equal prefix length and equal first
`prefix_len / 8` address bytes. -/
def prefix_match (p : ip6_prefix) (e : ip6_route_entry) : Bool :=
  p.prefix_len == e.pfx.prefix_len && memcmp_eq p.addr e.pfx.addr (p.prefix_len / 8)

/-- The condition of the scan in `ip6_find_route_entry` (lines 153-154). -/
def dest_match (dest : ip6_addr_t) (e : ip6_route_entry) : Bool :=
  memcmp_eq dest e.pfx.addr (e.pfx.prefix_len / 8)

/-- The loop `for (i = 0; i < N; i++) if (c(table[i])) break`, started at index `i`
on the slots that remain: the index of the first slot that satisfies `c`. -/
def scan_from (c : ip6_route_entry → Bool) : List ip6_route_entry → Nat → Option Nat
  | [], _ => none
  | e :: es, i => if c e then some i else scan_from c es (i + 1)

/-- The shift loop of `ip6_add_route_entry` (lines 78-81), entered with counter
`i`: while `i > 0` and the new length is greater than that of slot `i - 1`, copy
slot `i - 1` into slot `i` and decrement.  Returns the final counter and table. -/
def add_shift (plen : Nat) : Nat → List ip6_route_entry → Nat × List ip6_route_entry
  | 0, t => (0, t)
  | i + 1, t =>
    if plen > (slot t i).pfx.prefix_len then
      add_shift plen i (t.set (i + 1) (slot t i))
    else (i + 1, t)

/-- The result of `ip6_add_route_entry`: the return code, the table, and the value
stored through `index` (`none` when nothing is stored). -/
structure add_result where
  err : err_t
  table : List ip6_route_entry
  index : Option Int
  deriving DecidableEq, Repr

/-- The label `insert:` of `ip6_add_route_entry` (lines 83-93): write the prefix,
the netif and the gateway into slot `i` and report `i`. -/
def add_insert_at (t : List ip6_route_entry) (i : Nat) (p : ip6_prefix)
    (netif gateway : Option Nat) : add_result :=
  { err := err_t.ERR_OK,
    table := t.set i { pfx := p, netif := netif, gateway := gateway },
    index := some (s8_of_int i) }

/-- The C function `ip6_add_route_entry` (lines 50-97), with a non-null `index`. -/
def ip6_add_route_entry (valid : Nat → Bool) (t : List ip6_route_entry)
    (p : ip6_prefix) (netif gateway : Option Nat) : add_result :=
  if !valid p.prefix_len || netif.isNone then
    { err := err_t.ERR_ARG, table := t, index := none }
  else
    match scan_from (prefix_match p) t 0 with
    | some i => add_insert_at t i p netif gateway
    | none =>
      if (slot t (t.length - 1)).netif.isSome then
        { err := err_t.ERR_MEM, table := t, index := none }
      else
        let r := add_shift p.prefix_len (t.length - 1) t
        add_insert_at r.2 r.1 p netif gateway

/-- The first loop of the removal (lines 121-126), with `k` iterations left
(`k = N - 1 - i`): copy slot `i + 1` into slot `i`, stop when the copied slot has
a `NULL` netif, else increment.  Returns the final counter and table. -/
def remove_shift : Nat → Nat → List ip6_route_entry → Nat × List ip6_route_entry
  | 0, i, t => (i, t)
  | k + 1, i, t =>
    let t1 := t.set i (slot t (i + 1))
    if (slot t1 i).netif.isNone then (i, t1) else remove_shift k (i + 1) t1

/-- The body of the second loop of the removal (lines 129-130). -/
def clear_entry (e : ip6_route_entry) : ip6_route_entry :=
  { e with pfx := { e.pfx with addr := ip6_addr_zero }, netif := none }

/-- The second loop of the removal (lines 128-131), with `k` iterations left
(`k = N - i`): zero the address and the netif of slot `i`, increment. -/
def remove_zero : Nat → Nat → List ip6_route_entry → List ip6_route_entry
  | 0, _, t => t
  | k + 1, i, t => remove_zero k (i + 1) (t.set i (clear_entry (slot t i)))

/-- The C function `ip6_remove_route_entry` (lines 104-135). -/
def ip6_remove_route_entry (t : List ip6_route_entry) (p : ip6_prefix) :
    List ip6_route_entry :=
  match scan_from (prefix_match p) t 0 with
  | none => t
  | some pos =>
    let r := remove_shift (t.length - 1 - pos) pos t
    remove_zero (t.length - r.1) r.1 r.2

/-- The C function `ip6_find_route_entry` (lines 146-161). -/
def ip6_find_route_entry (t : List ip6_route_entry) (dest : ip6_addr_t) : Int :=
  match scan_from (dest_match dest) t 0 with
  | some i => s8_of_int i
  | none => s8_of_int (-1)

/-- The C function `ip6_static_route` (lines 171-185). -/
def ip6_static_route (t : List ip6_route_entry) (_src : Option ip6_addr_t)
    (dest : ip6_addr_t) : Option Nat :=
  let i := ip6_find_route_entry t dest
  if i ≥ 0 then (slot t i.toNat).netif else none

/-- The C function `ip6_get_gateway` (lines 195-208). -/
def ip6_get_gateway (t : List ip6_route_entry) (_netif : Option Nat)
    (dest : ip6_addr_t) : Option Nat :=
  let i := ip6_find_route_entry t dest
  if i ≥ 0 then
    if (slot t i.toNat).gateway.isSome then (slot t i.toNat).gateway else none
  else none

/-- A call of one of the two mutating functions. -/
inductive route_op where
  | add (p : ip6_prefix) (netif gateway : Option Nat)
  | remove (p : ip6_prefix)
  deriving DecidableEq, Repr

/-- The table after one call. -/
def apply_op (valid : Nat → Bool) (t : List ip6_route_entry) : route_op → List ip6_route_entry
  | route_op.add p netif gateway => (ip6_add_route_entry valid t p netif gateway).table
  | route_op.remove p => ip6_remove_route_entry t p

/-- The table after a sequence of calls, in order. -/
def run_ops (valid : Nat → Bool) (t : List ip6_route_entry) (ops : List route_op) :
    List ip6_route_entry :=
  ops.foldl (apply_op valid) t

/-- The states reachable from the all-empty table of capacity `N`. -/
def Reachable (valid : Nat → Bool) (N : Nat) (t : List ip6_route_entry) : Prop :=
  ∃ ops : List route_op, run_ops valid (init_table N) ops = t

/-- Modelled from the spec: the macro `ip6_prefix_valid` is declared in
`lwip/ip6_route_table.h`, which is not among the sources.  The spec describes it as
"in range" (0-128) "and acceptable to the platform's address-prefix rules", with
byte-granular prefixes.  This instance accepts the byte-aligned lengths
0, 8, ..., 128; it is used only for the concrete call sequences below, whose
lengths (0, 8, 16, 32, 48) are in range and byte-aligned. -/
def ip6_prefix_valid (prefix_len : Nat) : Bool :=
  prefix_len ≤ 128 && prefix_len % 8 == 0

/-! Predicates used in the proofs. -/

/-- The prefix lengths of all slots, occupied or not, never increase with the index. -/
def sorted_all (t : List ip6_route_entry) : Prop :=
  ∀ a b, a ≤ b → b < t.length → (slot t b).pfx.prefix_len ≤ (slot t a).pfx.prefix_len

/-- No slot in front of an occupied slot matches that slot's prefix. -/
def first_key (t : List ip6_route_entry) : Prop :=
  ∀ i j, i < j → j < t.length → occupied (slot t j) = true →
    prefix_match (slot t j).pfx (slot t i) = false

/-- Insert the routes `rs` in order with `ip6_add_route_entry`; `none` as soon as
one call does not return `ERR_OK`. -/
def insert_all (valid : Nat → Bool) :
    List ip6_route_entry → List ip6_route_entry → Option (List ip6_route_entry)
  | t, [] => some t
  | t, r :: rs =>
    if (ip6_add_route_entry valid t r.pfx r.netif r.gateway).err = err_t.ERR_OK then
      insert_all valid (ip6_add_route_entry valid t r.pfx r.netif r.gateway).table rs
    else none

/-- What holds of a table `t` built from the empty one by successful inserts of the
routes `done`, whose prefix lengths are pairwise different. -/
structure ins_inv (done t : List ip6_route_entry) : Prop where
  strict : ∀ a b, a < b → b < t.length → occupied (slot t b) = true →
    (slot t b).pfx.prefix_len < (slot t a).pfx.prefix_len
  empty_zero : ∀ k, k < t.length → occupied (slot t k) = false →
    (slot t k).pfx.prefix_len = 0
  stored : ∀ r, r ∈ done → ∃ k, k < t.length ∧ slot t k = r
  from_done : ∀ k, k < t.length → occupied (slot t k) = true → slot t k ∈ done
  done_occupied : ∀ r, r ∈ done → occupied r = true

/-! Concrete addresses, routes and tables. -/

/-- The address `2001:db8::`. -/
def addr_2001_db8 : ip6_addr_t := [0x20, 0x01, 0x0d, 0xb8, 0, 0, 0, 0, 0, 0, 0, 0, 0, 0, 0, 0]

/-- The address `2001:db8:1::`. -/
def addr_2001_db8_1 : ip6_addr_t := [0x20, 0x01, 0x0d, 0xb8, 0, 1, 0, 0, 0, 0, 0, 0, 0, 0, 0, 0]

/-- The address `2001:db8:1::1`. -/
def addr_2001_db8_1_1 : ip6_addr_t :=
  [0x20, 0x01, 0x0d, 0xb8, 0, 1, 0, 0, 0, 0, 0, 0, 0, 0, 0, 1]

/-- The address `2001:db8:2::1`. -/
def addr_2001_db8_2_1 : ip6_addr_t :=
  [0x20, 0x01, 0x0d, 0xb8, 0, 2, 0, 0, 0, 0, 0, 0, 0, 0, 0, 1]

/-- The address `2001::`. -/
def addr_2001 : ip6_addr_t := [0x20, 0x01, 0, 0, 0, 0, 0, 0, 0, 0, 0, 0, 0, 0, 0, 0]

/-- The address `fd00::`. -/
def addr_fd00 : ip6_addr_t := [0xfd, 0, 0, 0, 0, 0, 0, 0, 0, 0, 0, 0, 0, 0, 0, 0]

/-- The loopback address `::1`. -/
def addr_loopback : ip6_addr_t := [0, 0, 0, 0, 0, 0, 0, 0, 0, 0, 0, 0, 0, 0, 0, 1]

/-- The route `2001:db8::/32` through interface 0, gateway handle 7. -/
def route_32 : ip6_route_entry :=
  { pfx := { addr := addr_2001_db8, prefix_len := 32 }, netif := some 0, gateway := some 7 }

/-- The route `2001:db8:1::/48` through interface 1, no gateway. -/
def route_48 : ip6_route_entry :=
  { pfx := { addr := addr_2001_db8_1, prefix_len := 48 }, netif := some 1, gateway := none }

/-- The route `2001::/16` through interface 3, no gateway. -/
def route_16 : ip6_route_entry :=
  { pfx := { addr := addr_2001, prefix_len := 16 }, netif := some 3, gateway := none }

/-- The route `fd00::/8` through interface 2, no gateway. -/
def route_8 : ip6_route_entry :=
  { pfx := { addr := addr_fd00, prefix_len := 8 }, netif := some 2, gateway := none }

/-- The default route `::/0` through interface 2, no gateway. -/
def route_default : ip6_route_entry :=
  { pfx := { addr := ip6_addr_zero, prefix_len := 0 }, netif := some 2, gateway := none }

/-- The call that adds the route `r`. -/
def add_op (r : ip6_route_entry) : route_op := route_op.add r.pfx r.netif r.gateway

/-- The table of capacity 2 with the two routes of the spec's example. -/
def lpm_table : List ip6_route_entry := [route_48, route_32]

/-- A cleared slot as the removal leaves it in the last position: zero address and
`NULL` netif, prefix length and gateway kept. -/
def stale_entry (prefix_len : Nat) (gateway : Option Nat) : ip6_route_entry :=
  { pfx := { addr := ip6_addr_zero, prefix_len := prefix_len }, netif := none,
    gateway := gateway }

/-- Calls on a table of capacity 2: fill it, remove both routes (the one in the
last slot first), then add `fd00::/8`. -/
def gap_ops : List route_op :=
  [add_op route_48, add_op route_32, route_op.remove route_32.pfx,
   route_op.remove route_48.pfx, add_op route_8]

/-- The table of capacity 2 after `gap_ops`: slot 0 is a cleared slot that kept
prefix length 32 and gateway 7, slot 1 holds `fd00::/8`. -/
def gap_table : List ip6_route_entry := [stale_entry 32 (some 7), route_8]

/-- Calls on a table of capacity 2: as `gap_ops`, with the default route added last. -/
def default_gap_ops : List route_op :=
  [add_op route_48, add_op route_32, route_op.remove route_32.pfx,
   route_op.remove route_48.pfx, add_op route_default]

/-- The table of capacity 2 after `default_gap_ops`: the cleared slot 0, then
the default route in slot 1. -/
def default_gap_table : List ip6_route_entry := [stale_entry 32 (some 7), route_default]

/-- Calls on a table of capacity 3: fill it, remove the three routes from the
front, then add `fd00::/8`. -/
def gap3_ops : List route_op :=
  [add_op route_48, add_op route_32, add_op route_16, route_op.remove route_48.pfx,
   route_op.remove route_32.pfx, route_op.remove route_16.pfx, add_op route_8]

/-- The table of capacity 3 after `gap3_ops`: two cleared slots that kept prefix
length 16, then `fd00::/8`. -/
def gap3_table : List ip6_route_entry :=
  [stale_entry 16 none, stale_entry 16 none, route_8]

/-- The prefix `::/16`, which no route of `gap3_table` has. -/
def absent_16 : ip6_prefix := { addr := ip6_addr_zero, prefix_len := 16 }

/-! Further predicates and concrete tables. -/

/-- Every empty slot has the zero address. -/
def empty_zero_addr (t : List ip6_route_entry) : Prop :=
  ∀ k, k < t.length → occupied (slot t k) = false → (slot t k).pfx.addr = ip6_addr_zero

/-- An empty slot that is not one of the last two is followed by an empty slot of
the same prefix length. -/
def empty_run (t : List ip6_route_entry) : Prop :=
  ∀ k, k + 2 < t.length → occupied (slot t k) = false →
    occupied (slot t (k + 1)) = false ∧
      (slot t (k + 1)).pfx.prefix_len = (slot t k).pfx.prefix_len

/-- The two facts about the empty slots that hold in every reachable table. -/
def tail_inv (t : List ip6_route_entry) : Prop := empty_zero_addr t ∧ empty_run t

/-- The sequence of occupied entries of a table, in index order. -/
def entries (t : List ip6_route_entry) : List ip6_route_entry := t.filter occupied

/-- The address `fc00::`. -/
def addr_fc00 : ip6_addr_t := [0xfc, 0, 0, 0, 0, 0, 0, 0, 0, 0, 0, 0, 0, 0, 0, 0]

/-- The route `fc00::/8` through interface 4, no gateway. -/
def route_8b : ip6_route_entry :=
  { pfx := { addr := addr_fc00, prefix_len := 8 }, netif := some 4, gateway := none }

/-- Calls on a table of capacity 3: fill it with a /16 and two /8 routes, remove
the two /8 routes, then add the default route. -/
def lost_ops : List route_op :=
  [add_op route_16, add_op route_8, add_op route_8b, route_op.remove route_8.pfx,
   route_op.remove route_8b.pfx, add_op route_default]

/-- The table of capacity 3 after `lost_ops`: `2001::/16`, a cleared slot that kept
prefix length 8, and the default route. -/
def lost_table : List ip6_route_entry := [route_16, stale_entry 8 none, route_default]

/-- Calls on a table of capacity 2: fill it, then remove the route of the last
slot, which has gateway 7. -/
def stale_gw_ops : List route_op :=
  [add_op route_48, add_op route_32, route_op.remove route_32.pfx]

/-- The table of capacity 2 after `stale_gw_ops`: `2001:db8:1::/48` and a cleared
slot that kept prefix length 32 and gateway 7. -/
def stale_gw_table : List ip6_route_entry := [route_48, stale_entry 32 (some 7)]

/-- A table of capacity 3 that holds `2001::/16` and `fd00::/8`; the last slot is
as at start. -/
def tie_table : List ip6_route_entry := [route_16, route_8, zero_entry]

/-! Reading and writing slots. -/

theorem slot_set (t : List ip6_route_entry) (i j : Nat) (e : ip6_route_entry) :
    slot (t.set i e) j = if i = j ∧ i < t.length then e else slot t j := by
  unfold slot
  simp only [List.getD_eq_getElem?_getD, List.getElem?_set]
  by_cases h : i = j
  · subst h
    by_cases h2 : i < t.length
    · simp [h2]
    · have h3 : t[i]? = none := List.getElem?_eq_none (by omega)
      simp [h2, h3]
  · simp [h]

theorem slot_of_lt {t : List ip6_route_entry} {i : Nat} (h : i < t.length) :
    slot t i = t[i] := by
  unfold slot
  simp [List.getD_eq_getElem?_getD, h]

theorem slot_of_ge {t : List ip6_route_entry} {i : Nat} (h : t.length ≤ i) :
    slot t i = zero_entry := by
  unfold slot
  have h3 : t[i]? = none := List.getElem?_eq_none h
  simp [List.getD_eq_getElem?_getD, h3]

theorem table_ext {s t : List ip6_route_entry} (hl : s.length = t.length)
    (h : ∀ k, k < t.length → slot s k = slot t k) : s = t := by
  apply List.ext_getElem hl
  intro k h1 h2
  have := h k h2
  rw [slot_of_lt h1, slot_of_lt h2] at this
  exact this

theorem slot_cons_zero (e : ip6_route_entry) (es : List ip6_route_entry) :
    slot (e :: es) 0 = e := rfl

theorem slot_cons_succ (e : ip6_route_entry) (es : List ip6_route_entry) (k : Nat) :
    slot (e :: es) (k + 1) = slot es k := rfl

theorem scan_from_some {c : ip6_route_entry → Bool} :
    ∀ (t : List ip6_route_entry) (s i : Nat), scan_from c t s = some i →
      s ≤ i ∧ i - s < t.length ∧ c (slot t (i - s)) = true ∧
        ∀ k, k < i - s → c (slot t k) = false := by
  intro t
  induction t with
  | nil => intro s i h; simp [scan_from] at h
  | cons e es ih =>
    intro s i h
    unfold scan_from at h
    by_cases hc : c e = true
    · simp only [hc, if_true, Option.some.injEq] at h
      subst h
      refine ⟨le_refl _, by simp, by simpa [slot_cons_zero] using hc, ?_⟩
      intro k hk; omega
    · simp only [hc] at h
      obtain ⟨h1, h2, h3, h4⟩ := ih (s + 1) i h
      have e1 : i - s = (i - (s + 1)) + 1 := by omega
      refine ⟨by omega, by simp only [List.length_cons]; omega, ?_, ?_⟩
      · rw [e1, slot_cons_succ]; exact h3
      · intro k hk
        cases k with
        | zero => simpa [slot_cons_zero] using hc
        | succ k => rw [slot_cons_succ]; exact h4 k (by omega)

theorem scan_from_none {c : ip6_route_entry → Bool} :
    ∀ (t : List ip6_route_entry) (s : Nat), scan_from c t s = none →
      ∀ k, k < t.length → c (slot t k) = false := by
  intro t
  induction t with
  | nil => intro s _ k hk; simp at hk
  | cons e es ih =>
    intro s h k hk
    unfold scan_from at h
    by_cases hc : c e = true
    · simp [hc] at h
    · simp only [hc] at h
      cases k with
      | zero => simpa [slot_cons_zero] using hc
      | succ k =>
        rw [slot_cons_succ]
        exact ih (s + 1) h k (by simpa using hk)

theorem scan_from_first {c : ip6_route_entry → Bool} :
    ∀ (t : List ip6_route_entry) (s i : Nat), i < t.length → c (slot t i) = true →
      (∀ k, k < i → c (slot t k) = false) → scan_from c t s = some (s + i) := by
  intro t
  induction t with
  | nil => intro s i h; simp at h
  | cons e es ih =>
    intro s i hi hc hfirst
    unfold scan_from
    cases i with
    | zero =>
      rw [slot_cons_zero] at hc
      simp [hc]
    | succ i =>
      have h0 := hfirst 0 (by omega)
      rw [slot_cons_zero] at h0
      simp only [h0]
      rw [slot_cons_succ] at hc
      have := ih (s + 1) i (by simpa using hi) hc (fun k hk => by
        have := hfirst (k + 1) (by omega)
        rwa [slot_cons_succ] at this)
      simp only [Bool.false_eq_true, if_false]
      rw [this]; congr 1; omega

/-! The loops of the insert and of the removal, slot by slot. -/

theorem add_shift_spec (plen : Nat) : ∀ (i : Nat) (t : List ip6_route_entry), i < t.length →
    (add_shift plen i t).1 ≤ i ∧ (add_shift plen i t).2.length = t.length ∧
    (∀ k, slot (add_shift plen i t).2 k =
        if k ≤ (add_shift plen i t).1 then slot t k
        else if k ≤ i then slot t (k - 1) else slot t k) ∧
    ((add_shift plen i t).1 = 0 ∨
        plen ≤ (slot t ((add_shift plen i t).1 - 1)).pfx.prefix_len) ∧
    (∀ k, (add_shift plen i t).1 ≤ k → k < i → (slot t k).pfx.prefix_len < plen) := by
  intro i
  induction i with
  | zero =>
    intro t _
    refine ⟨le_refl _, rfl, ?_, Or.inl rfl, ?_⟩
    · intro k
      by_cases hk : k ≤ 0
      · simp only [add_shift, hk, if_true]
      · simp only [add_shift, hk, if_false]
    · intro k _ hk2; omega
  | succ i ih =>
    intro t hi
    by_cases hc : plen > (slot t i).pfx.prefix_len
    · have hdef : add_shift plen (i + 1) t = add_shift plen i (t.set (i + 1) (slot t i)) := by
        simp [add_shift, hc]
      rw [hdef]
      obtain ⟨h1, h2, h3, h4, h5⟩ := ih (t.set (i + 1) (slot t i)) (by simpa using by omega)
      refine ⟨by omega, by simpa using h2, ?_, ?_, ?_⟩
      · intro k
        rw [h3 k]
        simp only [slot_set]
        by_cases hk1 : k ≤ (add_shift plen i (t.set (i + 1) (slot t i))).1
        · have : ¬ (i + 1 = k ∧ i + 1 < t.length) := by omega
          simp [hk1, this]
        · by_cases hk2 : k ≤ i
          · have a1 : ¬ (i + 1 = k - 1 ∧ i + 1 < t.length) := by omega
            have a2 : k ≤ i + 1 := by omega
            simp [hk1, hk2, a1, a2]
          · by_cases hk3 : k = i + 1
            · subst hk3
              simp [hk1, hk2, hi]
            · have a1 : ¬ (i + 1 = k ∧ i + 1 < t.length) := by omega
              have a2 : ¬ k ≤ i + 1 := by omega
              simp [hk1, hk2, a1, a2]
      · rcases h4 with h4 | h4
        · exact Or.inl h4
        · right
          rw [slot_set] at h4
          have a1 : ¬ (i + 1 = (add_shift plen i (t.set (i + 1) (slot t i))).1 - 1 ∧
              i + 1 < t.length) := by omega
          simpa [a1] using h4
      · intro k hk1 hk2
        by_cases hk3 : k = i
        · subst hk3; exact hc
        · have := h5 k hk1 (by omega)
          rw [slot_set] at this
          have a1 : ¬ (i + 1 = k ∧ i + 1 < t.length) := by omega
          simpa [a1] using this
    · have hdef : add_shift plen (i + 1) t = (i + 1, t) := by
        simp [add_shift, hc]
      rw [hdef]
      refine ⟨le_refl _, rfl, ?_, ?_, ?_⟩
      · intro k
        by_cases hk1 : k ≤ i + 1
        · simp [hk1]
        · simp [hk1]
      · right
        simpa using Nat.le_of_not_gt hc
      · intro k hk1 hk2
        simp at hk1; omega

theorem remove_shift_spec : ∀ (k i : Nat) (t : List ip6_route_entry), i + k < t.length →
    i ≤ (remove_shift k i t).1 ∧ (remove_shift k i t).1 ≤ i + k ∧
    (remove_shift k i t).2.length = t.length ∧
    (∀ j, slot (remove_shift k i t).2 j =
        if i ≤ j ∧ (j < (remove_shift k i t).1 ∨
            (j = (remove_shift k i t).1 ∧ (remove_shift k i t).1 < i + k))
        then slot t (j + 1) else slot t j) ∧
    (∀ j, i ≤ j → j < (remove_shift k i t).1 → occupied (slot t (j + 1)) = true) ∧
    ((remove_shift k i t).1 < i + k →
        occupied (slot t ((remove_shift k i t).1 + 1)) = false) := by
  intro k
  induction k with
  | zero =>
    intro i t _
    refine ⟨le_refl _, le_refl _, rfl, ?_, ?_, ?_⟩
    · intro j
      have a1 : ¬ (i ≤ j ∧ (j < i ∨ (j = i ∧ i < i + 0))) := by omega
      simp only [remove_shift, a1, if_false]
    · intro j h1 h2; simp only [remove_shift] at h2; omega
    · intro h; simp only [remove_shift] at h; omega
  | succ k ih =>
    intro i t hik
    have hs : slot (t.set i (slot t (i + 1))) i = slot t (i + 1) := by
      rw [slot_set]; simp; intro h; omega
    by_cases hc : (slot t (i + 1)).netif.isNone = true
    · have hdef : remove_shift (k + 1) i t = (i, t.set i (slot t (i + 1))) := by
        simp only [remove_shift, hs, hc, if_true]
      rw [hdef]
      refine ⟨le_refl _, by omega, by simp, ?_, ?_, ?_⟩
      · intro j
        rw [slot_set]
        by_cases hj : i = j
        · subst hj
          have a1 : i < t.length := by omega
          simp [a1]
        · have a1 : ¬ (i ≤ j ∧ (j < i ∨ (j = i ∧ i < i + (k + 1)))) := by omega
          simp only [hj, false_and, if_false]
          simp only [a1, if_false]
      · intro j h1 h2; simp at h2; omega
      · intro _
        simp only [occupied]
        cases hn : (slot t (i + 1)).netif with
        | none => rfl
        | some v => rw [hn] at hc; simp at hc
    · have hdef : remove_shift (k + 1) i t =
          remove_shift k (i + 1) (t.set i (slot t (i + 1))) := by
        simp only [remove_shift, hs, hc]
        simp
      rw [hdef]
      obtain ⟨h1, h2, h3, h4, h5, h6⟩ :=
        ih (i + 1) (t.set i (slot t (i + 1))) (by simp; omega)
      have hocc : occupied (slot t (i + 1)) = true := by
        simp only [occupied]
        cases hn : (slot t (i + 1)).netif with
        | none => rw [hn] at hc; simp at hc
        | some v => rfl
      refine ⟨by omega, by omega, by simpa using h3, ?_, ?_, ?_⟩
      · intro j
        rw [h4 j]
        simp only [slot_set]
        by_cases hj : j = i
        · subst hj
          rw [if_neg (by omega), if_pos ⟨rfl, by omega⟩, if_pos (by omega)]
        · by_cases hlt : j < i
          · rw [if_neg (by omega), if_neg (by omega), if_neg (by omega)]
          · by_cases hc2 : j < (remove_shift k (i + 1) (t.set i (slot t (i + 1)))).1 ∨
                (j = (remove_shift k (i + 1) (t.set i (slot t (i + 1)))).1 ∧
                  (remove_shift k (i + 1) (t.set i (slot t (i + 1)))).1 < i + 1 + k)
            · rw [if_pos ⟨by omega, hc2⟩, if_neg (by omega), if_pos (by omega)]
            · rw [if_neg (by omega), if_neg (by omega), if_neg (by omega)]
      · intro j hj1 hj2
        by_cases hj : j = i
        · subst hj; exact hocc
        · have := h5 j (by omega) hj2
          rw [slot_set] at this
          have a4 : ¬ (i = j + 1 ∧ i < t.length) := by omega
          simpa [a4] using this
      · intro hlt
        have := h6 (by omega)
        rw [slot_set] at this
        have a4 : ¬ (i = (remove_shift k (i + 1) (t.set i (slot t (i + 1)))).1 + 1 ∧
            i < t.length) := by omega
        simpa [a4] using this

theorem remove_zero_spec : ∀ (k i : Nat) (t : List ip6_route_entry),
    (remove_zero k i t).length = t.length ∧
    ∀ j, slot (remove_zero k i t) j =
      if i ≤ j ∧ j < i + k ∧ j < t.length then clear_entry (slot t j) else slot t j := by
  intro k
  induction k with
  | zero =>
    intro i t
    refine ⟨rfl, ?_⟩
    intro j
    have a1 : ¬ (i ≤ j ∧ j < i + 0 ∧ j < t.length) := by omega
    simp only [remove_zero, a1, if_false]
  | succ k ih =>
    intro i t
    obtain ⟨h1, h2⟩ := ih (i + 1) (t.set i (clear_entry (slot t i)))
    have hdef : remove_zero (k + 1) i t =
        remove_zero k (i + 1) (t.set i (clear_entry (slot t i))) := rfl
    rw [hdef]
    refine ⟨by simpa using h1, ?_⟩
    intro j
    rw [h2 j]
    simp only [slot_set, List.length_set]
    by_cases hj : i = j
    · subst hj
      by_cases hl : i < t.length
      · rw [if_neg (by omega), if_pos ⟨rfl, hl⟩, if_pos (by omega)]
      · rw [if_neg (by omega), if_neg (by omega), if_neg (by omega)]
    · by_cases hc : i + 1 ≤ j ∧ j < i + 1 + k ∧ j < t.length
      · rw [if_pos hc, if_neg (by omega), if_pos (by omega)]
      · rw [if_neg hc, if_neg (by omega), if_neg (by omega)]

/-! The two mutating functions, case by case. -/

theorem occupied_clear_entry (e : ip6_route_entry) : occupied (clear_entry e) = false := rfl

theorem prefix_len_clear_entry (e : ip6_route_entry) :
    (clear_entry e).pfx.prefix_len = e.pfx.prefix_len := rfl

theorem prefix_match_iff (p : ip6_prefix) (e : ip6_route_entry) :
    prefix_match p e = true ↔
      p.prefix_len = e.pfx.prefix_len ∧
        p.addr.take (p.prefix_len / 8) = e.pfx.addr.take (p.prefix_len / 8) := by
  simp [prefix_match, memcmp_eq]

theorem prefix_match_trans {p : ip6_prefix} {e f : ip6_route_entry}
    (h1 : prefix_match p e = true) (h2 : prefix_match e.pfx f = true) :
    prefix_match p f = true := by
  rw [prefix_match_iff] at *
  obtain ⟨a1, a2⟩ := h1
  obtain ⟨b1, b2⟩ := h2
  refine ⟨a1.trans b1, ?_⟩
  rw [a2, a1, b2]

theorem prefix_match_symm {p : ip6_prefix} {e : ip6_route_entry} (n g : Option Nat)
    (h : prefix_match p e = true) :
    prefix_match e.pfx { pfx := p, netif := n, gateway := g } = true := by
  rw [prefix_match_iff] at *
  obtain ⟨a1, a2⟩ := h
  exact ⟨a1.symm, by rw [← a1, a2]⟩

theorem prefix_match_pfx (p : ip6_prefix) (e f : ip6_route_entry) (h : e.pfx = f.pfx) :
    prefix_match p e = prefix_match p f := by
  simp [prefix_match, h]

/-- What `ip6_remove_route_entry` does when the scan finds slot `pos`. -/
theorem remove_found_spec (t : List ip6_route_entry) (p : ip6_prefix) (pos : Nat)
    (hs : scan_from (prefix_match p) t 0 = some pos) :
    ∃ e, pos ≤ e ∧ e < t.length ∧ (ip6_remove_route_entry t p).length = t.length ∧
      (∀ j, j < pos → slot (ip6_remove_route_entry t p) j = slot t j) ∧
      (∀ j, pos ≤ j → j < e →
        slot (ip6_remove_route_entry t p) j = slot t (j + 1) ∧
          occupied (slot t (j + 1)) = true) ∧
      (e + 1 < t.length →
        slot (ip6_remove_route_entry t p) e = clear_entry (slot t (e + 1)) ∧
          occupied (slot t (e + 1)) = false) ∧
      (e + 1 = t.length → slot (ip6_remove_route_entry t p) e = clear_entry (slot t e)) ∧
      (∀ j, e < j → j < t.length →
        slot (ip6_remove_route_entry t p) j = clear_entry (slot t j)) := by
  obtain ⟨-, hpos, -, -⟩ := scan_from_some t 0 pos hs
  simp only [Nat.sub_zero] at hpos
  have hdef : ip6_remove_route_entry t p =
      remove_zero (t.length - (remove_shift (t.length - 1 - pos) pos t).1)
        (remove_shift (t.length - 1 - pos) pos t).1
        (remove_shift (t.length - 1 - pos) pos t).2 := by
    simp only [ip6_remove_route_entry, hs]
  obtain ⟨h1, h2, h3, h4, h5, h6⟩ :=
    remove_shift_spec (t.length - 1 - pos) pos t (by omega)
  obtain ⟨z1, z2⟩ := remove_zero_spec (t.length - (remove_shift (t.length - 1 - pos) pos t).1)
    (remove_shift (t.length - 1 - pos) pos t).1 (remove_shift (t.length - 1 - pos) pos t).2
  rw [← hdef] at z1 z2
  generalize (remove_shift (t.length - 1 - pos) pos t).1 = e at *
  generalize (remove_shift (t.length - 1 - pos) pos t).2 = t1 at *
  refine ⟨e, h1, by omega, by omega, ?_, ?_, ?_, ?_, ?_⟩
  · intro j hj
    rw [z2 j, if_neg (by omega), h4 j, if_neg (by omega)]
  · intro j hj1 hj2
    refine ⟨?_, h5 j hj1 hj2⟩
    rw [z2 j, if_neg (by omega), h4 j, if_pos (by omega)]
  · intro he
    refine ⟨?_, h6 (by omega)⟩
    rw [z2 e, if_pos (by omega), h4 e, if_pos (by omega)]
  · intro he
    rw [z2 e, if_pos (by omega), h4 e, if_neg (by omega)]
  · intro j hj1 hj2
    rw [z2 j, if_pos (by omega), h4 j, if_neg (by omega)]

theorem remove_absent (t : List ip6_route_entry) (p : ip6_prefix)
    (hs : scan_from (prefix_match p) t 0 = none) : ip6_remove_route_entry t p = t := by
  simp only [ip6_remove_route_entry, hs]

theorem remove_length (t : List ip6_route_entry) (p : ip6_prefix) :
    (ip6_remove_route_entry t p).length = t.length := by
  cases hs : scan_from (prefix_match p) t 0 with
  | none => rw [remove_absent t p hs]
  | some pos =>
    obtain ⟨e, -, -, h, -⟩ := remove_found_spec t p pos hs
    exact h

/-- The four outcomes of `ip6_add_route_entry`. -/
theorem add_arg_case (valid : Nat → Bool) (t : List ip6_route_entry) (p : ip6_prefix)
    (n g : Option Nat) (h : valid p.prefix_len = false ∨ n = none) :
    ip6_add_route_entry valid t p n g = { err := err_t.ERR_ARG, table := t, index := none } := by
  unfold ip6_add_route_entry
  rcases h with h | h
  · simp [h]
  · simp [h]

theorem add_replace_case (valid : Nat → Bool) (t : List ip6_route_entry) (p : ip6_prefix)
    (n g : Option Nat) (i : Nat) (hv : valid p.prefix_len = true) (hn : n.isSome = true)
    (hs : scan_from (prefix_match p) t 0 = some i) :
    ip6_add_route_entry valid t p n g = add_insert_at t i p n g := by
  unfold ip6_add_route_entry
  have : n.isNone = false := by cases n <;> simp_all
  simp [hv, this, hs]

theorem add_full_case (valid : Nat → Bool) (t : List ip6_route_entry) (p : ip6_prefix)
    (n g : Option Nat) (hv : valid p.prefix_len = true) (hn : n.isSome = true)
    (hs : scan_from (prefix_match p) t 0 = none)
    (hl : (slot t (t.length - 1)).netif.isSome = true) :
    ip6_add_route_entry valid t p n g = { err := err_t.ERR_MEM, table := t, index := none } := by
  unfold ip6_add_route_entry
  have : n.isNone = false := by cases n <;> simp_all
  simp [hv, this, hs, hl]

theorem add_shift_case (valid : Nat → Bool) (t : List ip6_route_entry) (p : ip6_prefix)
    (n g : Option Nat) (hv : valid p.prefix_len = true) (hn : n.isSome = true)
    (hs : scan_from (prefix_match p) t 0 = none)
    (hl : (slot t (t.length - 1)).netif.isSome = false) :
    ip6_add_route_entry valid t p n g =
      add_insert_at (add_shift p.prefix_len (t.length - 1) t).2
        (add_shift p.prefix_len (t.length - 1) t).1 p n g := by
  unfold ip6_add_route_entry
  have : n.isNone = false := by cases n <;> simp_all
  simp [hv, this, hs, hl]

/-- The table after a shift-insert, slot by slot. -/
theorem add_shift_case_spec (t : List ip6_route_entry) (p : ip6_prefix) (n g : Option Nat)
    (hN : 0 < t.length) :
    ∃ i, i < t.length ∧ i = (add_shift p.prefix_len (t.length - 1) t).1 ∧
      (add_insert_at (add_shift p.prefix_len (t.length - 1) t).2 i p n g).table.length
        = t.length ∧
      (∀ k, k < i →
        slot (add_insert_at (add_shift p.prefix_len (t.length - 1) t).2 i p n g).table k
          = slot t k) ∧
      slot (add_insert_at (add_shift p.prefix_len (t.length - 1) t).2 i p n g).table i
        = { pfx := p, netif := n, gateway := g } ∧
      (∀ k, i < k → k < t.length →
        slot (add_insert_at (add_shift p.prefix_len (t.length - 1) t).2 i p n g).table k
          = slot t (k - 1)) ∧
      (i = 0 ∨ p.prefix_len ≤ (slot t (i - 1)).pfx.prefix_len) ∧
      (∀ k, i ≤ k → k + 1 < t.length → (slot t k).pfx.prefix_len < p.prefix_len) := by
  obtain ⟨h1, h2, h3, h4, h5⟩ := add_shift_spec p.prefix_len (t.length - 1) t (by omega)
  refine ⟨_, by omega, rfl, ?_, ?_, ?_, ?_, h4, ?_⟩
  · simp [add_insert_at, h2]
  · intro k hk
    simp only [add_insert_at, slot_set]
    rw [if_neg (by omega), h3 k, if_pos (by omega)]
  · simp only [add_insert_at]
    rw [slot_set, if_pos ⟨rfl, by omega⟩]
  · intro k hk1 hk2
    simp only [add_insert_at, slot_set]
    rw [if_neg (by omega), h3 k, if_neg (by omega), if_pos (by omega)]
  · intro k hk1 hk2
    exact h5 k hk1 (by omega)

theorem add_table_cases (valid : Nat → Bool) (t : List ip6_route_entry) (p : ip6_prefix)
    (n g : Option Nat) :
    (ip6_add_route_entry valid t p n g).table = t ∨
    (∃ i, scan_from (prefix_match p) t 0 = some i ∧
      (ip6_add_route_entry valid t p n g).table =
        t.set i { pfx := p, netif := n, gateway := g }) ∨
    (scan_from (prefix_match p) t 0 = none ∧
      (ip6_add_route_entry valid t p n g).table =
        (add_insert_at (add_shift p.prefix_len (t.length - 1) t).2
          (add_shift p.prefix_len (t.length - 1) t).1 p n g).table) := by
  by_cases hv : valid p.prefix_len = true
  · cases hn : n.isSome with
    | false =>
      left
      rw [add_arg_case valid t p n g (Or.inr (by cases n <;> simp_all))]
    | true =>
      cases hs : scan_from (prefix_match p) t 0 with
      | some i =>
        right; left
        exact ⟨i, rfl, by rw [add_replace_case valid t p n g i hv hn hs]; rfl⟩
      | none =>
        cases hl : (slot t (t.length - 1)).netif.isSome with
        | true => left; rw [add_full_case valid t p n g hv hn hs hl]
        | false => right; right; exact ⟨rfl, by rw [add_shift_case valid t p n g hv hn hs hl]⟩
  · left
    rw [add_arg_case valid t p n g (Or.inl (by simpa using hv))]

theorem add_length (valid : Nat → Bool) (t : List ip6_route_entry) (p : ip6_prefix)
    (n g : Option Nat) : (ip6_add_route_entry valid t p n g).table.length = t.length := by
  rcases add_table_cases valid t p n g with h | ⟨i, -, h⟩ | ⟨-, h⟩
  · rw [h]
  · rw [h]; simp
  · rw [h]
    by_cases hN : 0 < t.length
    · obtain ⟨i, -, hi, hlen, -⟩ := add_shift_case_spec t p n g hN
      rw [hi] at hlen; exact hlen
    · have : t = [] := List.eq_nil_of_length_eq_zero (by omega)
      subst this
      simp [add_insert_at, add_shift]

theorem sorted_all_add (valid : Nat → Bool) (t : List ip6_route_entry) (p : ip6_prefix)
    (n g : Option Nat) (h : sorted_all t) :
    sorted_all (ip6_add_route_entry valid t p n g).table := by
  rcases add_table_cases valid t p n g with e | ⟨i, hs, e⟩ | ⟨-, e⟩
  · rw [e]; exact h
  · rw [e]
    obtain ⟨-, hi, hm, -⟩ := scan_from_some t 0 i hs
    simp only [Nat.sub_zero] at hi hm
    have hp := ((prefix_match_iff p (slot t i)).1 hm).1
    have key : ∀ k, (slot (t.set i { pfx := p, netif := n, gateway := g }) k).pfx.prefix_len
        = (slot t k).pfx.prefix_len := by
      intro k
      rw [slot_set]
      by_cases hk : i = k ∧ i < t.length
      · rw [if_pos hk, ← hk.1]; exact hp
      · rw [if_neg hk]
    intro a b hab hb
    rw [key a, key b]
    exact h a b hab (by simpa using hb)
  · by_cases hN : 0 < t.length
    · rw [e]
      obtain ⟨i, hi, hidef, hlen, h1, h2, h3, h4, h5⟩ := add_shift_case_spec t p n g hN
      rw [← hidef]
      intro a b hab hb
      rw [hlen] at hb
      rcases Nat.lt_or_ge b i with hbi | hbi
      · rw [h1 a (by omega), h1 b hbi]; exact h a b hab hb
      · rcases Nat.eq_or_lt_of_le hbi with hbi | hbi
        · subst hbi
          rcases Nat.eq_or_lt_of_le hab with hab | hab
          · subst hab; exact le_refl _
          · rw [h1 a hab, h2]
            rcases h4 with h4 | h4
            · omega
            · exact le_trans h4 (h a (i - 1) (by omega) (by omega))
        · rw [h3 b hbi hb]
          rcases Nat.lt_or_ge a i with hai | hai
          · rw [h1 a hai]; exact h a (b - 1) (by omega) (by omega)
          · rcases Nat.eq_or_lt_of_le hai with hai | hai
            · subst hai
              rw [h2]
              exact Nat.le_of_lt (h5 (b - 1) (by omega) (by omega))
            · rw [h3 a hai (by omega)]
              exact h (a - 1) (b - 1) (by omega) (by omega)
    · intro a b _ hb
      rw [add_length] at hb; omega

theorem sorted_all_remove (t : List ip6_route_entry) (p : ip6_prefix) (h : sorted_all t) :
    sorted_all (ip6_remove_route_entry t p) := by
  cases hs : scan_from (prefix_match p) t 0 with
  | none => rw [remove_absent t p hs]; exact h
  | some pos =>
    obtain ⟨e, he1, he2, hlen, h1, h2, h3, h4, h5⟩ := remove_found_spec t p pos hs
    -- every slot of the result has the prefix length of a slot `σ k` of the old table
    have key : ∀ k, k < t.length → ∃ s, k ≤ s ∧ s ≤ k + 1 ∧ s < t.length ∧ (k < pos → s = k) ∧
        (e < k → s = k) ∧
        (slot (ip6_remove_route_entry t p) k).pfx.prefix_len = (slot t s).pfx.prefix_len := by
      intro k hk
      rcases Nat.lt_or_ge k pos with c1 | c1
      · exact ⟨k, le_refl _, by omega, hk, fun _ => rfl, fun _ => rfl, by rw [h1 k c1]⟩
      · rcases Nat.lt_or_ge k e with c2 | c2
        · exact ⟨k + 1, by omega, le_refl _, by omega, fun _ => by omega, fun _ => by omega,
            by rw [(h2 k c1 c2).1]⟩
        · rcases Nat.eq_or_lt_of_le c2 with c3 | c3
          · subst c3
            by_cases hlast : e + 1 < t.length
            · exact ⟨e + 1, by omega, le_refl _, hlast, fun _ => by omega, fun _ => by omega,
                by rw [(h3 hlast).1]; rfl⟩
            · exact ⟨e, le_refl _, by omega, hk, fun _ => rfl, fun _ => rfl,
                by rw [h4 (by omega)]; rfl⟩
          · exact ⟨k, le_refl _, by omega, hk, fun _ => rfl, fun _ => rfl,
              by rw [h5 k c3 hk]; rfl⟩
    intro a b hab hb
    rw [hlen] at hb
    rcases Nat.eq_or_lt_of_le hab with hab | hab
    · subst hab; exact le_refl _
    · obtain ⟨sa, a1, a2, a3, a4, a5, a6⟩ := key a (by omega)
      obtain ⟨sb, b1, b2, b3, b4, b5, b6⟩ := key b hb
      rw [a6, b6]
      exact h sa sb (by omega) b3

theorem first_key_add (valid : Nat → Bool) (t : List ip6_route_entry) (p : ip6_prefix)
    (n g : Option Nat) (h : first_key t) :
    first_key (ip6_add_route_entry valid t p n g).table := by
  rcases add_table_cases valid t p n g with e | ⟨i, hs, e⟩ | ⟨hs, e⟩
  · rw [e]; exact h
  · rw [e]
    obtain ⟨-, hi, hm, hfirst⟩ := scan_from_some t 0 i hs
    simp only [Nat.sub_zero] at hi hm hfirst
    intro a b hab hb hocc
    rw [List.length_set] at hb
    rw [slot_set] at hocc ⊢
    rw [slot_set]
    by_cases hbi : i = b
    · subst hbi
      rw [if_pos ⟨rfl, hi⟩, if_neg (by omega)]
      exact hfirst a hab
    · rw [if_neg (by omega)] at hocc ⊢
      by_cases hai : i = a
      · subst hai
        rw [if_pos ⟨rfl, hi⟩]
        have hold := h i b hab hb hocc
        cases hc : prefix_match (slot t b).pfx { pfx := p, netif := n, gateway := g } with
        | false => rfl
        | true =>
          have : prefix_match (slot t b).pfx (slot t i) = true :=
            prefix_match_trans (e := { pfx := p, netif := n, gateway := g }) hc hm
          rw [this] at hold; exact absurd hold (by simp)
      · rw [if_neg (by omega)]
        exact h a b hab hb hocc
  · by_cases hN : 0 < t.length
    · rw [e]
      have hnone := scan_from_none t 0 hs
      obtain ⟨i, hi, hidef, hlen, h1, h2, h3, h4, h5⟩ := add_shift_case_spec t p n g hN
      rw [← hidef]
      intro a b hab hb hocc
      rw [hlen] at hb
      rcases Nat.lt_or_ge b i with hbi | hbi
      · rw [h1 b hbi] at hocc ⊢
        rw [h1 a (by omega)]
        exact h a b hab hb hocc
      · rcases Nat.eq_or_lt_of_le hbi with hbi | hbi
        · subst hbi
          rw [h2, h1 a hab]
          exact hnone a (by omega)
        · rw [h3 b hbi hb] at hocc ⊢
          rcases Nat.lt_or_ge a i with hai | hai
          · rw [h1 a hai]; exact h a (b - 1) (by omega) (by omega) hocc
          · rcases Nat.eq_or_lt_of_le hai with hai | hai
            · subst hai
              rw [h2]
              cases hc : prefix_match (slot t (b - 1)).pfx
                  { pfx := p, netif := n, gateway := g } with
              | false => rfl
              | true =>
                have := prefix_match_symm (slot t (b - 1)).netif (slot t (b - 1)).gateway hc
                simp only at this
                have h0 := hnone (b - 1) (by omega)
                rw [prefix_match_pfx p (slot t (b - 1))
                  { pfx := (slot t (b - 1)).pfx, netif := (slot t (b - 1)).netif,
                    gateway := (slot t (b - 1)).gateway } rfl] at h0
                rw [this] at h0; exact absurd h0 (by simp)
            · rw [h3 a hai (by omega)]
              exact h (a - 1) (b - 1) (by omega) (by omega) hocc
    · intro a b _ hb
      rw [add_length] at hb; omega

theorem first_key_remove (t : List ip6_route_entry) (p : ip6_prefix) (h : first_key t) :
    first_key (ip6_remove_route_entry t p) := by
  cases hs : scan_from (prefix_match p) t 0 with
  | none => rw [remove_absent t p hs]; exact h
  | some pos =>
    obtain ⟨e, he1, he2, hlen, h1, h2, h3, h4, h5⟩ := remove_found_spec t p pos hs
    intro a b hab hb hocc
    rw [hlen] at hb
    -- an occupied slot of the result lies before the stopping point `e`
    have hbe : b < e := by
      rcases Nat.lt_or_ge b e with c | c
      · exact c
      · exfalso
        rcases Nat.eq_or_lt_of_le c with c | c
        · subst c
          by_cases hlast : e + 1 < t.length
          · rw [(h3 hlast).1, occupied_clear_entry] at hocc; exact absurd hocc (by simp)
          · rw [h4 (by omega), occupied_clear_entry] at hocc; exact absurd hocc (by simp)
        · rw [h5 b c hb, occupied_clear_entry] at hocc; exact absurd hocc (by simp)
    rcases Nat.lt_or_ge b pos with c1 | c1
    · rw [h1 b c1] at hocc ⊢
      rw [h1 a (by omega)]
      exact h a b hab hb hocc
    · rw [(h2 b c1 hbe).1] at hocc ⊢
      rcases Nat.lt_or_ge a pos with c2 | c2
      · rw [h1 a c2]
        exact h a (b + 1) (by omega) (by omega) hocc
      · rw [(h2 a c2 (by omega)).1]
        exact h (a + 1) (b + 1) (by omega) (by omega) hocc

theorem sorted_all_init (N : Nat) : sorted_all (init_table N) := by
  intro a b _ hb
  have hb' : b < N := by simpa [init_table] using hb
  have e : ∀ k, slot (init_table N) k = zero_entry := by
    intro k
    unfold slot init_table
    rw [List.getD_eq_getElem?_getD]
    by_cases hk : k < N
    · simp [hk]
    · rw [List.getElem?_eq_none (by simpa using hk)]; rfl
  rw [e a, e b]

theorem slot_init (N k : Nat) : slot (init_table N) k = zero_entry := by
  unfold slot init_table
  rw [List.getD_eq_getElem?_getD]
  by_cases hk : k < N
  · simp [hk]
  · rw [List.getElem?_eq_none (by simpa using hk)]; rfl

theorem first_key_init (N : Nat) : first_key (init_table N) := by
  intro a b _ _ hocc
  rw [slot_init] at hocc
  exact absurd hocc (by decide)

theorem run_ops_invariant (valid : Nat → Bool) (P : List ip6_route_entry → Prop)
    (hadd : ∀ t p n g, P t → P (ip6_add_route_entry valid t p n g).table)
    (hrem : ∀ t p, P t → P (ip6_remove_route_entry t p)) :
    ∀ (ops : List route_op) (t : List ip6_route_entry), P t → P (run_ops valid t ops) := by
  intro ops
  induction ops with
  | nil => intro t h; exact h
  | cons op ops ih =>
    intro t h
    have : run_ops valid t (op :: ops) = run_ops valid (apply_op valid t op) ops := rfl
    rw [this]
    apply ih
    cases op with
    | add p n g => exact hadd t p n g h
    | remove p => exact hrem t p h

theorem reachable_length {valid : Nat → Bool} {N : Nat} {t : List ip6_route_entry}
    (h : Reachable valid N t) : t.length = N := by
  obtain ⟨ops, rfl⟩ := h
  exact run_ops_invariant valid (fun t => t.length = N)
    (fun t p n g ht => (add_length valid t p n g).trans ht)
    (fun t p ht => (remove_length t p).trans ht) ops _ (by simp [init_table])

theorem reachable_sorted_all {valid : Nat → Bool} {N : Nat} {t : List ip6_route_entry}
    (h : Reachable valid N t) : sorted_all t := by
  obtain ⟨ops, rfl⟩ := h
  exact run_ops_invariant valid sorted_all
    (fun t p n g ht => sorted_all_add valid t p n g ht)
    (fun t p ht => sorted_all_remove t p ht) ops _ (sorted_all_init N)

theorem reachable_first_key {valid : Nat → Bool} {N : Nat} {t : List ip6_route_entry}
    (h : Reachable valid N t) : first_key t := by
  obtain ⟨ops, rfl⟩ := h
  exact run_ops_invariant valid first_key
    (fun t p n g ht => first_key_add valid t p n g ht)
    (fun t p ht => first_key_remove t p ht) ops _ (first_key_init N)

/-! Tables built by inserts of pairwise different prefix lengths. -/

theorem s8_of_int_small (i : Nat) (h : i < 128) : s8_of_int (i : Int) = (i : Int) := by
  unfold s8_of_int; omega

theorem scan_from_of_exists {c : ip6_route_entry → Bool} (t : List ip6_route_entry)
    (s k : Nat) (hk : k < t.length) (hc : c (slot t k) = true) :
    ∃ i, scan_from c t s = some i := by
  cases h : scan_from c t s with
  | some i => exact ⟨i, rfl⟩
  | none =>
    have := scan_from_none t s h k hk
    rw [hc] at this; exact absurd this (by simp)

theorem prefix_match_zero_len (p : ip6_prefix) (e : ip6_route_entry)
    (hp : p.prefix_len = 0) (he : e.pfx.prefix_len = 0) : prefix_match p e = true := by
  rw [prefix_match_iff, hp, he]; simp

/-- The outcomes of a successful `ip6_add_route_entry`. -/
theorem add_ok_cases (valid : Nat → Bool) (t : List ip6_route_entry) (p : ip6_prefix)
    (n g : Option Nat) (h : (ip6_add_route_entry valid t p n g).err = err_t.ERR_OK) :
    valid p.prefix_len = true ∧ n.isSome = true ∧
    ((∃ i, scan_from (prefix_match p) t 0 = some i ∧
        ip6_add_route_entry valid t p n g = add_insert_at t i p n g) ∨
     (scan_from (prefix_match p) t 0 = none ∧
        (slot t (t.length - 1)).netif.isSome = false ∧
        ip6_add_route_entry valid t p n g =
          add_insert_at (add_shift p.prefix_len (t.length - 1) t).2
            (add_shift p.prefix_len (t.length - 1) t).1 p n g)) := by
  by_cases hv : valid p.prefix_len = true
  · cases hn : n.isSome with
    | false =>
      rw [add_arg_case valid t p n g (Or.inr (by cases n <;> simp_all))] at h
      simp at h
    | true =>
      refine ⟨hv, rfl, ?_⟩
      cases hs : scan_from (prefix_match p) t 0 with
      | some i => exact Or.inl ⟨i, rfl, add_replace_case valid t p n g i hv hn hs⟩
      | none =>
        cases hl : (slot t (t.length - 1)).netif.isSome with
        | true =>
          rw [add_full_case valid t p n g hv hn hs hl] at h
          simp at h
        | false => exact Or.inr ⟨rfl, rfl, add_shift_case valid t p n g hv hn hs hl⟩
  · rw [add_arg_case valid t p n g (Or.inl (by simpa using hv))] at h
    simp at h

theorem ins_inv_mono (done t : List ip6_route_entry) (h : ins_inv done t) :
    ∀ a b, a ≤ b → b < t.length → (slot t b).pfx.prefix_len ≤ (slot t a).pfx.prefix_len := by
  intro a b hab hb
  rcases Nat.eq_or_lt_of_le hab with hab | hab
  · subst hab; exact le_refl _
  · cases ho : occupied (slot t b) with
    | true => exact Nat.le_of_lt (h.strict a b hab hb ho)
    | false => rw [h.empty_zero b hb ho]; exact Nat.zero_le _

theorem ins_inv_step (valid : Nat → Bool) (done t : List ip6_route_entry)
    (r : ip6_route_entry) (hN : 0 < t.length) (h : ins_inv done t)
    (hnew : ∀ q, q ∈ done → q.pfx.prefix_len ≠ r.pfx.prefix_len)
    (hok : (ip6_add_route_entry valid t r.pfx r.netif r.gateway).err = err_t.ERR_OK) :
    ins_inv (done ++ [r]) (ip6_add_route_entry valid t r.pfx r.netif r.gateway).table := by
  obtain ⟨-, hn, hcase⟩ := add_ok_cases valid t r.pfx r.netif r.gateway hok
  have hrocc : occupied r = true := hn
  have heta : ({ pfx := r.pfx, netif := r.netif, gateway := r.gateway } : ip6_route_entry) = r :=
    rfl
  rcases hcase with ⟨i, hs, e⟩ | ⟨hs, hl, e⟩
  · rw [e]
    obtain ⟨-, hi, hm, hfirst⟩ := scan_from_some t 0 i hs
    simp only [Nat.sub_zero] at hi hm hfirst
    have hplen := ((prefix_match_iff r.pfx (slot t i)).1 hm).1
    have hiempty : occupied (slot t i) = false := by
      cases ho : occupied (slot t i) with
      | false => rfl
      | true => exact absurd hplen.symm (hnew _ (h.from_done i hi ho))
    have hr0 : r.pfx.prefix_len = 0 := by rw [hplen]; exact h.empty_zero i hi hiempty
    have hslot : ∀ k, slot (add_insert_at t i r.pfx r.netif r.gateway).table k =
        if i = k then r else slot t k := by
      intro k
      simp only [add_insert_at, slot_set, heta]
      by_cases hk : i = k
      · rw [if_pos ⟨hk, hi⟩, if_pos hk]
      · rw [if_neg (by omega), if_neg hk]
    have hlen : (add_insert_at t i r.pfx r.netif r.gateway).table.length = t.length := by
      simp [add_insert_at]
    constructor
    · intro a b hab hb ho
      rw [hlen] at hb
      rw [hslot a, hslot b]
      rw [hslot b] at ho
      by_cases hbi : i = b
      · subst hbi
        rw [if_pos rfl, if_neg (by omega), hr0]
        have := hfirst a hab
        rcases Nat.eq_zero_or_pos (slot t a).pfx.prefix_len with z | z
        · rw [prefix_match_zero_len r.pfx (slot t a) hr0 z] at this
          exact absurd this (by simp)
        · exact z
      · rw [if_neg hbi] at ho ⊢
        by_cases hai : i = a
        · subst hai
          have := h.strict i b hab hb ho
          rw [h.empty_zero i hi hiempty] at this
          omega
        · rw [if_neg hai]; exact h.strict a b hab hb ho
    · intro k hk ho
      rw [hlen] at hk
      rw [hslot k] at ho ⊢
      by_cases hki : i = k
      · rw [if_pos hki] at ho; rw [hrocc] at ho; exact absurd ho (by simp)
      · rw [if_neg hki] at ho ⊢; exact h.empty_zero k hk ho
    · intro q hq
      rw [hlen]
      rcases List.mem_append.1 hq with hq | hq
      · obtain ⟨k, hk, hkq⟩ := h.stored q hq
        refine ⟨k, hk, ?_⟩
        have : i ≠ k := by
          intro hik; subst hik
          have := h.done_occupied q hq
          rw [← hkq, hiempty] at this; exact absurd this (by simp)
        rw [hslot k, if_neg this]; exact hkq
      · have : q = r := by simpa using hq
        subst this
        exact ⟨i, hi, by rw [hslot i, if_pos rfl]⟩
    · intro k hk ho
      rw [hlen] at hk
      rw [hslot k] at ho ⊢
      by_cases hki : i = k
      · rw [if_pos hki]; simp
      · rw [if_neg hki] at ho ⊢
        exact List.mem_append_left _ (h.from_done k hk ho)
    · intro q hq
      rcases List.mem_append.1 hq with hq | hq
      · exact h.done_occupied q hq
      · have : q = r := by simpa using hq
        subst this; exact hrocc
  · rw [e]
    have hnone := scan_from_none t 0 hs
    have hlast : occupied (slot t (t.length - 1)) = false := hl
    obtain ⟨i, hi, hidef, hlen, h1, h2, h3, h4, h5⟩ :=
      add_shift_case_spec t r.pfx r.netif r.gateway hN
    rw [← hidef]
    rw [heta] at h2
    have hmono := ins_inv_mono done t h
    constructor
    · intro a b hab hb ho
      rw [hlen] at hb
      rcases Nat.lt_or_ge b i with hbi | hbi
      · rw [h1 b hbi] at ho ⊢
        rw [h1 a (by omega)]
        exact h.strict a b hab hb ho
      · rcases Nat.eq_or_lt_of_le hbi with hbi | hbi
        · subst hbi
          rw [h2, h1 a hab]
          have hle : r.pfx.prefix_len ≤ (slot t a).pfx.prefix_len := by
            rcases h4 with h4 | h4
            · omega
            · exact le_trans h4 (hmono a (i - 1) (by omega) (by omega))
          rcases Nat.eq_or_lt_of_le hle with heq | hlt
          · exfalso
            cases hoa : occupied (slot t a) with
            | true => exact hnew _ (h.from_done a (by omega) hoa) heq.symm
            | false =>
              have z := h.empty_zero a (by omega) hoa
              have := hnone a (by omega)
              rw [prefix_match_zero_len r.pfx (slot t a) (by omega) z] at this
              exact absurd this (by simp)
          · exact hlt
        · rw [h3 b hbi hb] at ho ⊢
          rcases Nat.lt_or_ge a i with hai | hai
          · rw [h1 a hai]; exact h.strict a (b - 1) (by omega) (by omega) ho
          · rcases Nat.eq_or_lt_of_le hai with hai | hai
            · subst hai
              rw [h2]
              exact h5 (b - 1) (by omega) (by omega)
            · rw [h3 a hai (by omega)]
              exact h.strict (a - 1) (b - 1) (by omega) (by omega) ho
    · intro k hk ho
      rw [hlen] at hk
      rcases Nat.lt_or_ge k i with hki | hki
      · rw [h1 k hki] at ho ⊢; exact h.empty_zero k hk ho
      · rcases Nat.eq_or_lt_of_le hki with hki | hki
        · subst hki
          rw [h2, hrocc] at ho; exact absurd ho (by simp)
        · rw [h3 k hki hk] at ho ⊢; exact h.empty_zero (k - 1) (by omega) ho
    · intro q hq
      rw [hlen]
      rcases List.mem_append.1 hq with hq | hq
      · obtain ⟨k, hk, hkq⟩ := h.stored q hq
        have hkl : k ≠ t.length - 1 := by
          intro hkl; subst hkl
          have := h.done_occupied q hq
          rw [← hkq, hlast] at this; exact absurd this (by simp)
        rcases Nat.lt_or_ge k i with hki | hki
        · exact ⟨k, hk, by rw [h1 k hki]; exact hkq⟩
        · exact ⟨k + 1, by omega, by rw [h3 (k + 1) (by omega) (by omega)]; exact hkq⟩
      · have : q = r := by simpa using hq
        subst this
        exact ⟨i, hi, h2⟩
    · intro k hk ho
      rw [hlen] at hk
      rcases Nat.lt_or_ge k i with hki | hki
      · rw [h1 k hki] at ho ⊢
        exact List.mem_append_left _ (h.from_done k hk ho)
      · rcases Nat.eq_or_lt_of_le hki with hki | hki
        · subst hki; rw [h2]; simp
        · rw [h3 k hki hk] at ho ⊢
          exact List.mem_append_left _ (h.from_done (k - 1) (by omega) ho)
    · intro q hq
      rcases List.mem_append.1 hq with hq | hq
      · exact h.done_occupied q hq
      · have : q = r := by simpa using hq
        subst this; exact hrocc

theorem ins_inv_init (N : Nat) : ins_inv [] (init_table N) := by
  constructor
  · intro a b _ _ ho
    rw [slot_init] at ho; exact absurd ho (by decide)
  · intro k _ _
    rw [slot_init]; rfl
  · intro r hr; simp at hr
  · intro k _ ho
    rw [slot_init] at ho; exact absurd ho (by decide)
  · intro r hr; simp at hr

theorem insert_all_inv (valid : Nat → Bool) :
    ∀ (rs done t t' : List ip6_route_entry), 0 < t.length → ins_inv done t →
      ((done ++ rs).map (fun r => r.pfx.prefix_len)).Nodup →
      insert_all valid t rs = some t' → ins_inv (done ++ rs) t' ∧ t'.length = t.length := by
  intro rs
  induction rs with
  | nil =>
    intro done t t' _ h _ hins
    simp only [insert_all, Option.some.injEq] at hins
    subst hins
    simpa using h
  | cons r rs ih =>
    intro done t t' hN h hnd hins
    unfold insert_all at hins
    by_cases hok : (ip6_add_route_entry valid t r.pfx r.netif r.gateway).err = err_t.ERR_OK
    · rw [if_pos hok] at hins
      have hnew : ∀ q, q ∈ done → q.pfx.prefix_len ≠ r.pfx.prefix_len := by
        intro q hq heq
        rw [List.map_append, List.nodup_append] at hnd
        have hm : q.pfx.prefix_len ∈ List.map (fun r => r.pfx.prefix_len) (r :: rs) := by
          rw [heq]
          exact List.mem_map_of_mem (fun r => r.pfx.prefix_len) (List.mem_cons_self r rs)
        exact hnd.2.2 (List.mem_map_of_mem (fun r => r.pfx.prefix_len) hq) hm
      have hstep := ins_inv_step valid done t r hN h hnew hok
      have hlen := add_length valid t r.pfx r.netif r.gateway
      have := ih (done ++ [r]) _ t' (by omega) hstep (by simpa using hnd) hins
      refine ⟨by simpa using this.1, by omega⟩
    · rw [if_neg hok] at hins
      exact absurd hins (by simp)

theorem countP_set_same (t : List ip6_route_entry) (j : Nat) (e : ip6_route_entry)
    (hj : j < t.length) (h : occupied e = occupied (slot t j)) :
    (t.set j e).countP occupied = t.countP occupied := by
  have hm : (t.set j e).map occupied = t.map occupied := by
    apply List.ext_getElem (by simp)
    intro k h1 h2
    simp only [List.getElem_map, List.getElem_set]
    by_cases hk : j = k
    · subst hk
      rw [if_pos rfl, h, slot_of_lt hj]
    · rw [if_neg hk]
  have e1 := List.countP_map (fun b : Bool => b) occupied (t.set j e)
  have e2 := List.countP_map (fun b : Bool => b) occupied t
  rw [hm] at e1
  have : ((fun b : Bool => b) ∘ occupied) = occupied := rfl
  rw [this] at e1 e2
  rw [← e1, ← e2]

/-! Evaluation of the concrete call sequences. -/

theorem lpm_table_insert :
    insert_all ip6_prefix_valid (init_table 2) [route_32, route_48] = some lpm_table := by
  decide

theorem lpm_table_run :
    run_ops ip6_prefix_valid (init_table 2) [add_op route_32, add_op route_48] = lpm_table := by
  decide

theorem gap_table_run : run_ops ip6_prefix_valid (init_table 2) gap_ops = gap_table := by
  decide

theorem default_gap_table_run :
    run_ops ip6_prefix_valid (init_table 2) default_gap_ops = default_gap_table := by
  decide

theorem gap3_table_run : run_ops ip6_prefix_valid (init_table 3) gap3_ops = gap3_table := by
  decide

theorem lost_table_run : run_ops ip6_prefix_valid (init_table 3) lost_ops = lost_table := by
  decide

/-! The claims. -/

/-- C1 (sortedness, I2): in every table reachable from the all-empty table by calls
of `ip6_add_route_entry` and `ip6_remove_route_entry`, the occupied slots taken in
index order have non-increasing `prefix_len`. -/
theorem occupied_sorted (valid : Nat → Bool) (N : Nat) (t : List ip6_route_entry)
    (h : Reachable valid N t) :
    ((t.filter occupied).map (fun e => e.pfx.prefix_len)).Pairwise (fun x y => y ≤ x) := by
  have hs := reachable_sorted_all h
  rw [List.pairwise_map]
  apply List.Pairwise.sublist (List.filter_sublist t)
  rw [List.pairwise_iff_getElem]
  intro i j hi hj hij
  have := hs i j (Nat.le_of_lt hij) hj
  rw [slot_of_lt hi, slot_of_lt hj] at this
  exact this

/-- Witness of C1: the table after `lost_ops` (inserts and removes) is reachable;
its two occupied slots, `2001::/16` in slot 0 and `::/0` in slot 2 behind an empty
slot, have the prefix lengths 16 and 0, in that order. -/
theorem occupied_sorted_witness :
    Reachable ip6_prefix_valid 3 lost_table ∧
      ((lost_table.filter occupied).map (fun e => e.pfx.prefix_len)).Pairwise
        (fun x y => y ≤ x) ∧
      (lost_table.filter occupied).map (fun e => e.pfx.prefix_len) = [16, 0] :=
  ⟨⟨lost_ops, lost_table_run⟩,
    occupied_sorted ip6_prefix_valid 3 lost_table ⟨lost_ops, lost_table_run⟩,
    by decide⟩

/-- C2 (no gaps, I1), evaluated at the failing input: after `gap_ops` on a table of
capacity 2 the empty slot 0 lies in front of the occupied slot 1.  The removal
clears the address and the netif of a slot but keeps its `prefix_len` (32 here), and
the shift loop of the insert stops at that slot. -/
theorem gap_before_occupied_slot :
    Reachable ip6_prefix_valid 2 gap_table ∧
      occupied (slot gap_table 0) = false ∧ occupied (slot gap_table 1) = true :=
  ⟨⟨gap_ops, gap_table_run⟩, by decide, by decide⟩

/-- C3 (LPM correctness): let the routes `rs`, with pairwise different prefix
lengths, be inserted successfully one after the other into the empty table of
capacity `N` (`1 ≤ N ≤ 128`), giving `t`.  If some inserted prefix agrees with
`dest` on its first `prefix_len / 8` bytes, then `ip6_find_route_entry` returns an
index `i` whose slot holds an inserted route that matches `dest`, and no inserted
route that matches `dest` has a greater prefix length. -/
theorem lpm_correct (valid : Nat → Bool) (N : Nat) (rs t : List ip6_route_entry)
    (dest : ip6_addr_t) (hN : 0 < N) (hN8 : N ≤ 128)
    (hins : insert_all valid (init_table N) rs = some t)
    (hdist : (rs.map (fun r => r.pfx.prefix_len)).Nodup)
    (hex : ∃ r, r ∈ rs ∧ dest_match dest r = true) :
    ∃ i : Nat, i < N ∧ ip6_find_route_entry t dest = (i : Int) ∧
      slot t i ∈ rs ∧ occupied (slot t i) = true ∧ dest_match dest (slot t i) = true ∧
      ∀ r, r ∈ rs → dest_match dest r = true →
        r.pfx.prefix_len ≤ (slot t i).pfx.prefix_len := by
  have hinit : (init_table N).length = N := by simp [init_table]
  obtain ⟨hinv, hlen⟩ := insert_all_inv valid rs [] (init_table N) t (by omega)
    (ins_inv_init N) (by simpa using hdist) hins
  rw [hinit] at hlen
  simp only [List.nil_append] at hinv
  obtain ⟨r, hr, hrm⟩ := hex
  obtain ⟨k, hk, hkr⟩ := hinv.stored r hr
  obtain ⟨i, hs⟩ := scan_from_of_exists (c := dest_match dest) t 0 k hk (by rw [hkr]; exact hrm)
  obtain ⟨-, hi, hm, hfirst⟩ := scan_from_some t 0 i hs
  simp only [Nat.sub_zero] at hi hm hfirst
  -- the first matching slot is not after any matching inserted route
  have hle : ∀ q, q ∈ rs → dest_match dest q = true →
      ∃ kq, kq < t.length ∧ slot t kq = q ∧ i ≤ kq := by
    intro q hq hqm
    obtain ⟨kq, hkq, hkqq⟩ := hinv.stored q hq
    refine ⟨kq, hkq, hkqq, ?_⟩
    rcases Nat.lt_or_ge kq i with c | c
    · have := hfirst kq c
      rw [hkqq, hqm] at this; exact absurd this (by simp)
    · exact c
  have hocc : occupied (slot t i) = true := by
    cases ho : occupied (slot t i) with
    | true => rfl
    | false =>
      exfalso
      obtain ⟨kq, hkq, hkqq, hikq⟩ := hle r hr hrm
      have hro := hinv.done_occupied r hr
      rcases Nat.eq_or_lt_of_le hikq with c | c
      · subst c; rw [hkqq, hro] at ho; exact absurd ho (by simp)
      · have := hinv.strict i kq c hkq (by rw [hkqq]; exact hro)
        rw [hinv.empty_zero i hi ho] at this
        omega
  refine ⟨i, by omega, ?_, hinv.from_done i hi hocc, hocc, hm, ?_⟩
  · simp only [ip6_find_route_entry, hs]
    exact s8_of_int_small i (by omega)
  · intro q hq hqm
    obtain ⟨kq, hkq, hkqq, hikq⟩ := hle q hq hqm
    rw [← hkqq]
    exact ins_inv_mono rs t hinv i kq hikq hkq

/-- Witness of C3, the example of the spec: after `2001:db8::/32 -> if0` and
`2001:db8:1::/48 -> if1`, the address `2001:db8:1::1` resolves to interface 1 and
`2001:db8:2::1` to interface 0. -/
theorem lpm_correct_witness :
    (0 < 2 ∧ 2 ≤ 128 ∧
      insert_all ip6_prefix_valid (init_table 2) [route_32, route_48] = some lpm_table ∧
      ([route_32, route_48].map (fun r => r.pfx.prefix_len)).Nodup ∧
      (∃ r, r ∈ [route_32, route_48] ∧ dest_match addr_2001_db8_1_1 r = true)) ∧
    (∃ i : Nat, i < 2 ∧ ip6_find_route_entry lpm_table addr_2001_db8_1_1 = (i : Int) ∧
      slot lpm_table i ∈ [route_32, route_48] ∧ occupied (slot lpm_table i) = true ∧
      dest_match addr_2001_db8_1_1 (slot lpm_table i) = true ∧
      ∀ r, r ∈ [route_32, route_48] → dest_match addr_2001_db8_1_1 r = true →
        r.pfx.prefix_len ≤ (slot lpm_table i).pfx.prefix_len) ∧
    ip6_static_route lpm_table none addr_2001_db8_1_1 = some 1 ∧
    ip6_static_route lpm_table none addr_2001_db8_2_1 = some 0 :=
  ⟨⟨by decide, by decide, lpm_table_insert, by decide, route_48, by decide, by decide⟩,
    lpm_correct ip6_prefix_valid 2 [route_32, route_48] lpm_table addr_2001_db8_1_1
      (by decide) (by decide) lpm_table_insert (by decide) ⟨route_48, by decide, by decide⟩,
    by decide, by decide⟩

/-- C4 (lookup reports only occupied routes), evaluated at the failing input: on
the all-empty table of any capacity `N + 1` and for every destination,
`ip6_find_route_entry` returns index 0, not -1, and slot 0 is not occupied.  The
scan does not test the netif, and an empty slot has prefix length 0, so the
`memcmp` over 0 bytes succeeds. -/
theorem find_on_empty_table (N : Nat) (dest : ip6_addr_t) :
    ip6_find_route_entry (init_table (N + 1)) dest = 0 ∧
      occupied (slot (init_table (N + 1)) 0) = false := by
  constructor
  · have h : scan_from (dest_match dest) (init_table (N + 1)) 0 = some 0 := by
      have : init_table (N + 1) = zero_entry :: init_table N := rfl
      rw [this]
      have hm : dest_match dest zero_entry = true := by
        simp [dest_match, memcmp_eq, zero_entry]
      simp [scan_from, hm]
    simp only [ip6_find_route_entry, h]
    rfl
  · rw [slot_init]; rfl

/-- C5 (resolve interface), evaluated at the failing input: in the reachable table
`default_gap_table` the default route `::/0` in slot 1 is occupied and matches
`::1`, yet `ip6_static_route` returns `NULL` for `::1`: the lookup stops at the
cleared slot 0, whose kept prefix length 32 and zero address match `::1`. -/
theorem static_route_misses_default_route :
    Reachable ip6_prefix_valid 2 default_gap_table ∧
      occupied (slot default_gap_table 1) = true ∧
      dest_match addr_loopback (slot default_gap_table 1) = true ∧
      ip6_static_route default_gap_table none addr_loopback = none :=
  ⟨⟨default_gap_ops, default_gap_table_run⟩, by decide, by decide, by decide⟩

/-- C6 (invalid-argument rejection): for every table, `ip6_add_route_entry` returns
`ERR_ARG` if and only if the prefix length fails the validity predicate or the netif
is `NULL`, and then the table is unchanged (and nothing is stored through `index`). -/
theorem add_invalid_argument (valid : Nat → Bool) (t : List ip6_route_entry)
    (p : ip6_prefix) (n g : Option Nat) :
    ((ip6_add_route_entry valid t p n g).err = err_t.ERR_ARG ↔
        (valid p.prefix_len = false ∨ n = none)) ∧
      ((ip6_add_route_entry valid t p n g).err = err_t.ERR_ARG →
        (ip6_add_route_entry valid t p n g).table = t ∧
          (ip6_add_route_entry valid t p n g).index = none) := by
  have key : (ip6_add_route_entry valid t p n g).err = err_t.ERR_ARG →
      (valid p.prefix_len = false ∨ n = none) := by
    intro h
    by_cases hv : valid p.prefix_len = true
    · cases hn : n.isSome with
      | false => right; cases n <;> simp_all
      | true =>
        exfalso
        cases hs : scan_from (prefix_match p) t 0 with
        | some i =>
          rw [add_replace_case valid t p n g i hv hn hs] at h
          simp [add_insert_at] at h
        | none =>
          cases hl : (slot t (t.length - 1)).netif.isSome with
          | true =>
            rw [add_full_case valid t p n g hv hn hs hl] at h
            simp at h
          | false =>
            rw [add_shift_case valid t p n g hv hn hs hl] at h
            simp [add_insert_at] at h
    · left; simpa using hv
  refine ⟨⟨key, fun h => by rw [add_arg_case valid t p n g h]⟩, ?_⟩
  intro h
  rw [add_arg_case valid t p n g (key h)]
  exact ⟨rfl, rfl⟩

/-- C7 (full-table rejection): on a table of capacity at least 1 whose slots are
all occupied, for a valid prefix `p` and a non-null netif: if no slot has the prefix
length of `p` and agrees with `p` on the first `prefix_len / 8` bytes, then
`ip6_add_route_entry` returns `ERR_MEM` and leaves the table unchanged; if some slot
matches, it returns `ERR_OK`. -/
theorem add_on_full_table (valid : Nat → Bool) (t : List ip6_route_entry)
    (p : ip6_prefix) (n g : Option Nat) (hN : 0 < t.length)
    (hfull : ∀ k, k < t.length → occupied (slot t k) = true)
    (hv : valid p.prefix_len = true) (hn : n.isSome = true) :
    ((∀ k, k < t.length → prefix_match p (slot t k) = false) →
        (ip6_add_route_entry valid t p n g).err = err_t.ERR_MEM ∧
          (ip6_add_route_entry valid t p n g).table = t) ∧
      ((∃ k, k < t.length ∧ prefix_match p (slot t k) = true) →
        (ip6_add_route_entry valid t p n g).err = err_t.ERR_OK) := by
  constructor
  · intro hno
    have hs : scan_from (prefix_match p) t 0 = none := by
      cases hs : scan_from (prefix_match p) t 0 with
      | none => rfl
      | some i =>
        obtain ⟨-, hi, hm, -⟩ := scan_from_some t 0 i hs
        simp only [Nat.sub_zero] at hi hm
        rw [hno i hi] at hm; exact absurd hm (by simp)
    have hl : (slot t (t.length - 1)).netif.isSome = true := hfull (t.length - 1) (by omega)
    rw [add_full_case valid t p n g hv hn hs hl]
    exact ⟨rfl, rfl⟩
  · rintro ⟨k, hk, hm⟩
    obtain ⟨i, hs⟩ := scan_from_of_exists (c := prefix_match p) t 0 k hk hm
    rw [add_replace_case valid t p n g i hv hn hs]
    rfl

/-- Witness of C7: the full table `lpm_table` and the route `fd00::/8`, which
matches no slot: the insert returns `ERR_MEM`. -/
theorem add_on_full_table_witness :
    (0 < lpm_table.length ∧
      (∀ k, k < lpm_table.length → occupied (slot lpm_table k) = true) ∧
      ip6_prefix_valid route_8.pfx.prefix_len = true ∧ route_8.netif.isSome = true ∧
      (∀ k, k < lpm_table.length → prefix_match route_8.pfx (slot lpm_table k) = false)) ∧
    (ip6_add_route_entry ip6_prefix_valid lpm_table route_8.pfx route_8.netif
        route_8.gateway).err = err_t.ERR_MEM ∧
    (ip6_add_route_entry ip6_prefix_valid lpm_table route_8.pfx route_8.netif
        route_8.gateway).table = lpm_table :=
  ⟨⟨by decide, by decide, by decide, by decide, by decide⟩,
    (add_on_full_table ip6_prefix_valid lpm_table route_8.pfx route_8.netif route_8.gateway
      (by decide) (by decide) (by decide) (by decide)).1 (by decide)⟩

/-- C8 (TableFull means capacity exhausted), evaluated at the failing input: in the
reachable table `gap_table` the insert of the valid route `2001:db8::/32` fails with
`ERR_MEM` although slot 0 is empty: the fullness test reads only the last slot. -/
theorem table_full_with_empty_slot :
    Reachable ip6_prefix_valid 2 gap_table ∧
      ip6_prefix_valid route_32.pfx.prefix_len = true ∧ route_32.netif.isSome = true ∧
      (ip6_add_route_entry ip6_prefix_valid gap_table route_32.pfx route_32.netif
        route_32.gateway).err = err_t.ERR_MEM ∧
      occupied (slot gap_table 0) = false :=
  ⟨⟨gap_ops, gap_table_run⟩, by decide, by decide, by decide, by decide⟩

/-- C9 (replace semantics): in a table reachable from the empty table of capacity
`N ≤ 128`, for a valid prefix `p` and a non-null netif `n`: if the occupied slot `j`
has the prefix length of `p` and agrees with `p` on the first `prefix_len / 8`
bytes, then `ip6_add_route_entry` returns `ERR_OK`, reports index `j`, leaves slot
`j` holding `p`, `n` and the gateway `g`, leaves every other slot unchanged, and
does not change the number of occupied slots. -/
theorem add_replaces_in_place (valid : Nat → Bool) (N : Nat) (t : List ip6_route_entry)
    (p : ip6_prefix) (n g : Option Nat) (j : Nat)
    (h : Reachable valid N t) (hN8 : N ≤ 128)
    (hv : valid p.prefix_len = true) (hn : n.isSome = true)
    (hj : j < t.length) (hocc : occupied (slot t j) = true)
    (hm : prefix_match p (slot t j) = true) :
    (ip6_add_route_entry valid t p n g).err = err_t.ERR_OK ∧
      (ip6_add_route_entry valid t p n g).index = some (j : Int) ∧
      slot (ip6_add_route_entry valid t p n g).table j =
        { pfx := p, netif := n, gateway := g } ∧
      (∀ k, k ≠ j → slot (ip6_add_route_entry valid t p n g).table k = slot t k) ∧
      (ip6_add_route_entry valid t p n g).table.length = t.length ∧
      (ip6_add_route_entry valid t p n g).table.countP occupied = t.countP occupied := by
  have hfk := reachable_first_key h
  have hlen := reachable_length h
  have hfirst : ∀ k, k < j → prefix_match p (slot t k) = false := by
    intro k hk
    cases hc : prefix_match p (slot t k) with
    | false => rfl
    | true =>
      have h1 := prefix_match_symm n g hm
      have h2 : prefix_match (slot t j).pfx (slot t k) = true :=
        prefix_match_trans (e := { pfx := p, netif := n, gateway := g }) h1 hc
      rw [hfk k j hk hj hocc] at h2; exact absurd h2 (by simp)
  have hs : scan_from (prefix_match p) t 0 = some j := by
    have := scan_from_first (c := prefix_match p) t 0 j hj hm hfirst
    simpa using this
  rw [add_replace_case valid t p n g j hv hn hs]
  refine ⟨rfl, ?_, ?_, ?_, ?_, ?_⟩
  · simp only [add_insert_at]
    rw [s8_of_int_small j (by omega)]
  · simp only [add_insert_at]
    rw [slot_set, if_pos ⟨rfl, hj⟩]
  · intro k hk
    simp only [add_insert_at]
    rw [slot_set, if_neg (by intro c; exact hk c.1.symm)]
  · simp [add_insert_at]
  · simp only [add_insert_at]
    apply countP_set_same t j _ hj
    rw [hocc]; exact hn

/-- Witness of C9: in `lpm_table`, adding `2001:db8::/32` again with interface 5 and
no gateway replaces slot 1 in place. -/
theorem add_replaces_in_place_witness :
    (Reachable ip6_prefix_valid 2 lpm_table ∧ 2 ≤ 128 ∧
      ip6_prefix_valid route_32.pfx.prefix_len = true ∧ (some 5 : Option Nat).isSome = true ∧
      1 < lpm_table.length ∧ occupied (slot lpm_table 1) = true ∧
      prefix_match route_32.pfx (slot lpm_table 1) = true) ∧
    ((ip6_add_route_entry ip6_prefix_valid lpm_table route_32.pfx (some 5) none).err
        = err_t.ERR_OK ∧
      (ip6_add_route_entry ip6_prefix_valid lpm_table route_32.pfx (some 5) none).index
        = some ((1 : Nat) : Int) ∧
      slot (ip6_add_route_entry ip6_prefix_valid lpm_table route_32.pfx (some 5) none).table 1
        = { pfx := route_32.pfx, netif := some 5, gateway := none } ∧
      (∀ k, k ≠ 1 →
        slot (ip6_add_route_entry ip6_prefix_valid lpm_table route_32.pfx (some 5) none).table k
          = slot lpm_table k) ∧
      (ip6_add_route_entry ip6_prefix_valid lpm_table route_32.pfx (some 5) none).table.length
        = lpm_table.length ∧
      (ip6_add_route_entry ip6_prefix_valid lpm_table route_32.pfx (some 5) none).table.countP
        occupied = lpm_table.countP occupied) :=
  ⟨⟨⟨_, lpm_table_run⟩, by decide, by decide, by decide, by decide, by decide, by decide⟩,
    add_replaces_in_place ip6_prefix_valid 2 lpm_table route_32.pfx (some 5) none 1
      ⟨_, lpm_table_run⟩ (by decide) (by decide) (by decide) (by decide) (by decide)
      (by decide)⟩

/-- C10 (remove of an absent route is a no-op), evaluated at the failing input: in
the reachable table `gap3_table` no occupied slot matches `::/16`, yet
`ip6_remove_route_entry` for `::/16` changes the table: it matches the cleared
slot 0, stops its shift at the empty slot 1 and then clears every slot to the end,
among them slot 2 with the route `fd00::/8`. -/
theorem remove_absent_drops_route :
    Reachable ip6_prefix_valid 3 gap3_table ∧
      (∀ k, k < 3 → occupied (slot gap3_table k) = true →
        prefix_match absent_16 (slot gap3_table k) = false) ∧
      ip6_remove_route_entry gap3_table absent_16 ≠ gap3_table ∧
      slot gap3_table 2 = route_8 ∧
      occupied (slot (ip6_remove_route_entry gap3_table absent_16) 2) = false :=
  ⟨⟨gap3_ops, gap3_table_run⟩, by decide, by decide, by decide, by decide⟩

/-! The empty slots of a reachable table. -/

theorem add_table_cases_some (valid : Nat → Bool) (t : List ip6_route_entry)
    (p : ip6_prefix) (n g : Option Nat) :
    (ip6_add_route_entry valid t p n g).table = t ∨
    (n.isSome = true ∧ ∃ i, scan_from (prefix_match p) t 0 = some i ∧
      (ip6_add_route_entry valid t p n g).table =
        t.set i { pfx := p, netif := n, gateway := g }) ∨
    (n.isSome = true ∧ scan_from (prefix_match p) t 0 = none ∧
      (ip6_add_route_entry valid t p n g).table =
        (add_insert_at (add_shift p.prefix_len (t.length - 1) t).2
          (add_shift p.prefix_len (t.length - 1) t).1 p n g).table) := by
  by_cases hv : valid p.prefix_len = true
  · cases hn : n.isSome with
    | false =>
      left
      rw [add_arg_case valid t p n g (Or.inr (by cases n <;> simp_all))]
    | true =>
      cases hs : scan_from (prefix_match p) t 0 with
      | some i =>
        right; left
        exact ⟨rfl, i, rfl, by rw [add_replace_case valid t p n g i hv hn hs]; rfl⟩
      | none =>
        cases hl : (slot t (t.length - 1)).netif.isSome with
        | true => left; rw [add_full_case valid t p n g hv hn hs hl]
        | false =>
          right; right
          exact ⟨rfl, rfl, by rw [add_shift_case valid t p n g hv hn hs hl]⟩
  · left
    rw [add_arg_case valid t p n g (Or.inl (by simpa using hv))]

theorem empty_same_pfx {t : List ip6_route_entry} (hz : empty_zero_addr t) {a b : Nat}
    (ha : a < t.length) (hb : b < t.length)
    (hea : occupied (slot t a) = false) (heb : occupied (slot t b) = false)
    (hp : (slot t b).pfx.prefix_len = (slot t a).pfx.prefix_len) :
    (slot t b).pfx = (slot t a).pfx := by
  have h1 := hz a ha hea
  have h2 := hz b hb heb
  cases hA : (slot t a).pfx with
  | mk aa al =>
    cases hB : (slot t b).pfx with
    | mk ba bl =>
      rw [hA] at h1 hp
      rw [hB] at h2 hp
      simp only at h1 h2 hp
      rw [h1, h2, hp]

/-- From an empty slot on, every slot but the last is empty with the same prefix
length. -/
theorem empty_run_chain {t : List ip6_route_entry} (hr : empty_run t) {k : Nat}
    (hk : occupied (slot t k) = false) :
    ∀ j, k ≤ j → j + 1 < t.length →
      occupied (slot t j) = false ∧ (slot t j).pfx.prefix_len = (slot t k).pfx.prefix_len := by
  intro j hkj
  induction j, hkj using Nat.le_induction with
  | base => intro _; exact ⟨hk, rfl⟩
  | succ j hkj ih =>
    intro hj
    obtain ⟨h1, h2⟩ := ih (by omega)
    obtain ⟨h3, h4⟩ := hr j (by omega) h1
    exact ⟨h3, h4.trans h2⟩

theorem tail_inv_add (valid : Nat → Bool) (t : List ip6_route_entry) (p : ip6_prefix)
    (n g : Option Nat) (h : tail_inv t) :
    tail_inv (ip6_add_route_entry valid t p n g).table := by
  obtain ⟨hz, hr⟩ := h
  rcases add_table_cases_some valid t p n g with e | ⟨hn, i, hs, e⟩ | ⟨hn, hs, e⟩
  · rw [e]; exact ⟨hz, hr⟩
  · rw [e]
    obtain ⟨-, hi, hm, hfirst⟩ := scan_from_some t 0 i hs
    simp only [Nat.sub_zero] at hi hm hfirst
    have hnew : occupied ({ pfx := p, netif := n, gateway := g } : ip6_route_entry) = true := hn
    have hslot : ∀ k, slot (t.set i { pfx := p, netif := n, gateway := g }) k =
        if i = k then { pfx := p, netif := n, gateway := g } else slot t k := by
      intro k
      rw [slot_set]
      by_cases hk : i = k
      · rw [if_pos ⟨hk, hi⟩, if_pos hk]
      · rw [if_neg (by omega), if_neg hk]
    constructor
    · intro k hk ho
      rw [List.length_set] at hk
      rw [hslot k] at ho ⊢
      by_cases hki : i = k
      · rw [if_pos hki, hnew] at ho; exact absurd ho (by simp)
      · rw [if_neg hki] at ho ⊢; exact hz k hk ho
    · intro k hk ho
      rw [List.length_set] at hk
      rw [hslot k] at ho ⊢
      by_cases hki : i = k
      · rw [if_pos hki, hnew] at ho; exact absurd ho (by simp)
      · rw [if_neg hki] at ho ⊢
        obtain ⟨h1, h2⟩ := hr k hk ho
        rw [hslot (k + 1)]
        by_cases hki1 : i = k + 1
        · exfalso
          subst hki1
          have hpfx := empty_same_pfx hz (a := k) (b := k + 1) (by omega) (by omega) ho h1 h2
          have := hfirst k (by omega)
          rw [prefix_match_pfx p (slot t k) (slot t (k + 1)) hpfx.symm, hm] at this
          exact absurd this (by simp)
        · rw [if_neg hki1]; exact ⟨h1, h2⟩
  · by_cases hN : 0 < t.length
    · rw [e]
      obtain ⟨i, hi, hidef, hlen, h1, h2, h3, h4, h5⟩ := add_shift_case_spec t p n g hN
      rw [← hidef]
      have hnew : occupied ({ pfx := p, netif := n, gateway := g } : ip6_route_entry) = true :=
        hn
      constructor
      · intro k hk ho
        rw [hlen] at hk
        rcases Nat.lt_or_ge k i with c | c
        · rw [h1 k c] at ho ⊢; exact hz k hk ho
        · rcases Nat.eq_or_lt_of_le c with c | c
          · subst c; rw [h2, hnew] at ho; exact absurd ho (by simp)
          · rw [h3 k c hk] at ho ⊢; exact hz (k - 1) (by omega) ho
      · intro k hk ho
        rw [hlen] at hk
        rcases Nat.lt_or_ge k i with c | c
        · rw [h1 k c] at ho ⊢
          obtain ⟨a1, a2⟩ := hr k hk ho
          rcases Nat.lt_or_ge (k + 1) i with c2 | c2
          · rw [h1 (k + 1) c2]; exact ⟨a1, a2⟩
          · exfalso
            have hi1 : i = k + 1 := by omega
            have b1 : p.prefix_len ≤ (slot t (i - 1)).pfx.prefix_len := by
              rcases h4 with h4 | h4
              · omega
              · exact h4
            have b2 := h5 i (le_refl _) (by omega)
            have e1 : i - 1 = k := by omega
            rw [e1] at b1
            rw [hi1] at b2
            omega
        · rcases Nat.eq_or_lt_of_le c with c | c
          · subst c; rw [h2, hnew] at ho; exact absurd ho (by simp)
          · rw [h3 k c (by omega)] at ho ⊢
            rw [h3 (k + 1) (by omega) (by omega)]
            obtain ⟨a1, a2⟩ := hr (k - 1) (by omega) ho
            have e1 : k - 1 + 1 = k := by omega
            have e2 : k + 1 - 1 = k := by omega
            rw [e1] at a1 a2
            rw [e2]
            exact ⟨a1, a2⟩
    · have hl := add_length valid t p n g
      constructor
      · intro k hk; omega
      · intro k hk; omega

theorem tail_inv_remove (t : List ip6_route_entry) (p : ip6_prefix) (h : tail_inv t) :
    tail_inv (ip6_remove_route_entry t p) := by
  obtain ⟨hz, hr⟩ := h
  cases hs : scan_from (prefix_match p) t 0 with
  | none => rw [remove_absent t p hs]; exact ⟨hz, hr⟩
  | some pos =>
    obtain ⟨-, hpos, hm, hfirst⟩ := scan_from_some t 0 pos hs
    simp only [Nat.sub_zero] at hpos hm hfirst
    obtain ⟨e, he1, he2, hlen, h1, h2, h3, h4, h5⟩ := remove_found_spec t p pos hs
    constructor
    · intro k hk ho
      rw [hlen] at hk
      rcases Nat.lt_or_ge k pos with c1 | c1
      · rw [h1 k c1] at ho ⊢; exact hz k hk ho
      · rcases Nat.lt_or_ge k e with c2 | c2
        · rw [(h2 k c1 c2).1, (h2 k c1 c2).2] at ho; exact absurd ho (by simp)
        · rcases Nat.eq_or_lt_of_le c2 with c3 | c3
          · subst c3
            by_cases hl : e + 1 < t.length
            · rw [(h3 hl).1]; rfl
            · rw [h4 (by omega)]; rfl
          · rw [h5 k c3 hk]; rfl
    · intro k hk ho
      rw [hlen] at hk
      rcases Nat.lt_or_ge k pos with c1 | c1
      · rw [h1 k c1] at ho ⊢
        obtain ⟨a1, a2⟩ := hr k hk ho
        rcases Nat.lt_or_ge (k + 1) pos with c2 | c2
        · rw [h1 (k + 1) c2]; exact ⟨a1, a2⟩
        · exfalso
          have hp1 : pos = k + 1 := by omega
          subst hp1
          have hpfx := empty_same_pfx hz (a := k) (b := k + 1) (by omega) (by omega) ho a1 a2
          have := hfirst k (by omega)
          rw [prefix_match_pfx p (slot t k) (slot t (k + 1)) hpfx.symm, hm] at this
          exact absurd this (by simp)
      · rcases Nat.lt_or_ge k e with c2 | c2
        · rw [(h2 k c1 c2).1, (h2 k c1 c2).2] at ho; exact absurd ho (by simp)
        · have hl : e + 1 < t.length := by omega
          obtain ⟨b1, b2⟩ := h3 hl
          rcases Nat.eq_or_lt_of_le c2 with c3 | c3
          · subst c3
            rw [b1, h5 (e + 1) (by omega) hl]
            exact ⟨rfl, rfl⟩
          · rw [h5 k c3 (by omega), h5 (k + 1) (by omega) (by omega)]
            refine ⟨rfl, ?_⟩
            have q1 := (empty_run_chain hr b2 k (by omega) (by omega)).2
            have q2 := (empty_run_chain hr b2 (k + 1) (by omega) (by omega)).2
            show (slot t (k + 1)).pfx.prefix_len = (slot t k).pfx.prefix_len
            rw [q1, q2]

theorem tail_inv_init (N : Nat) : tail_inv (init_table N) := by
  constructor
  · intro k _ _; rw [slot_init]; rfl
  · intro k _ _; rw [slot_init, slot_init]; exact ⟨rfl, rfl⟩

theorem reachable_tail_inv {valid : Nat → Bool} {N : Nat} {t : List ip6_route_entry}
    (h : Reachable valid N t) : tail_inv t := by
  obtain ⟨ops, rfl⟩ := h
  exact run_ops_invariant valid tail_inv
    (fun t p n g ht => tail_inv_add valid t p n g ht)
    (fun t p ht => tail_inv_remove t p ht) ops _ (tail_inv_init N)

theorem first_empty_or_all (t : List ip6_route_entry) :
    ∀ n, (∀ k, k < n → occupied (slot t k) = true) ∨
      ∃ k0, k0 < n ∧ occupied (slot t k0) = false ∧ ∀ k, k < k0 → occupied (slot t k) = true := by
  intro n
  induction n with
  | zero => left; intro k hk; omega
  | succ n ih =>
    rcases ih with h | ⟨k0, h1, h2, h3⟩
    · cases ho : occupied (slot t n) with
      | true =>
        left
        intro k hk
        rcases Nat.eq_or_lt_of_le (Nat.le_of_lt_succ hk) with c | c
        · rw [c]; exact ho
        · exact h k c
      | false => right; exact ⟨n, by omega, ho, h⟩
    · right; exact ⟨k0, by omega, h2, h3⟩

/-- In a reachable table the scan for a prefix that matches an occupied slot stops
at that slot. -/
theorem scan_finds_occupied {t : List ip6_route_entry} (hfk : first_key t) (p : ip6_prefix)
    (j : Nat) (hj : j < t.length) (hocc : occupied (slot t j) = true)
    (hm : prefix_match p (slot t j) = true) :
    scan_from (prefix_match p) t 0 = some j := by
  have hfirst : ∀ k, k < j → prefix_match p (slot t k) = false := by
    intro k hk
    cases hc : prefix_match p (slot t k) with
    | false => rfl
    | true =>
      have h1 := prefix_match_symm none none hm
      have h2 : prefix_match (slot t j).pfx (slot t k) = true :=
        prefix_match_trans (e := { pfx := p, netif := none, gateway := none }) h1 hc
      rw [hfk k j hk hj hocc] at h2; exact absurd h2 (by simp)
  have := scan_from_first (c := prefix_match p) t 0 j hj hm hfirst
  simpa using this

/-! The sequence of occupied entries. -/

theorem slot_take (t : List ip6_route_entry) (n k : Nat) :
    slot (t.take n) k = if k < n then slot t k else zero_entry := by
  unfold slot
  simp only [List.getD_eq_getElem?_getD, List.getElem?_take]
  by_cases h : k < n
  · simp [h]
  · simp [h]

theorem slot_drop (t : List ip6_route_entry) (n k : Nat) :
    slot (t.drop n) k = slot t (n + k) := by
  unfold slot
  simp only [List.getD_eq_getElem?_getD, List.getElem?_drop]

theorem slot_append (s t : List ip6_route_entry) (k : Nat) :
    slot (s ++ t) k = if k < s.length then slot s k else slot t (k - s.length) := by
  unfold slot
  simp only [List.getD_eq_getElem?_getD]
  by_cases h : k < s.length
  · rw [if_pos h, List.getElem?_append_left h]
  · rw [if_neg h, List.getElem?_append_right (by omega)]

/-- When the occupied slots are exactly the first `m`, they are the first `m` entries. -/
theorem entries_of_prefix : ∀ (t : List ip6_route_entry) (m : Nat), m ≤ t.length →
    (∀ k, k < m → occupied (slot t k) = true) →
    (∀ k, m ≤ k → k < t.length → occupied (slot t k) = false) →
    entries t = t.take m := by
  intro t
  induction t with
  | nil => intro m _ _ _; simp [entries]
  | cons e es ih =>
    intro m hm hocc hemp
    cases m with
    | zero =>
      simp only [entries, List.take_zero, List.filter_eq_nil_iff]
      intro x hx
      obtain ⟨k, hk, rfl⟩ := List.getElem_of_mem hx
      have := hemp k (Nat.zero_le _) hk
      rw [slot_of_lt hk] at this
      simp [this]
    | succ m =>
      have h0 : occupied e = true := by
        have := hocc 0 (by omega)
        rwa [slot_cons_zero] at this
      have := ih m (by simpa using hm)
        (fun k hk => by
          have := hocc (k + 1) (by omega)
          rwa [slot_cons_succ] at this)
        (fun k hk1 hk2 => by
          have := hemp (k + 1) (by omega) (by simpa using hk2)
          rwa [slot_cons_succ] at this)
      simp only [entries, List.take_succ_cons] at this ⊢
      rw [List.filter_cons_of_pos h0, this]

/-- A table whose occupied slots are the first `m` and then, at position `i ≤ m`,
one more entry: its occupied entries are the old ones with that entry put in at
position `i`. -/
theorem entries_insert (t t' : List ip6_route_entry) (new : ip6_route_entry) (m i : Nat)
    (hm : m < t.length) (him : i ≤ m) (hlen : t'.length = t.length)
    (hnew : occupied new = true)
    (hocc : ∀ k, k < m → occupied (slot t k) = true)
    (hemp : ∀ k, m ≤ k → k < t.length → occupied (slot t k) = false)
    (h1 : ∀ k, k < i → slot t' k = slot t k)
    (h2 : slot t' i = new)
    (h3 : ∀ k, i < k → k ≤ m → slot t' k = slot t (k - 1))
    (h4 : ∀ k, m < k → k < t.length → occupied (slot t' k) = false) :
    entries t' = (entries t).take i ++ new :: (entries t).drop i := by
  have e1 : entries t = t.take m := entries_of_prefix t m (by omega) hocc hemp
  have e2 : entries t' = t'.take (m + 1) := by
    apply entries_of_prefix t' (m + 1) (by omega)
    · intro k hk
      rcases Nat.lt_or_ge k i with c | c
      · rw [h1 k c]; exact hocc k (by omega)
      · rcases Nat.eq_or_lt_of_le c with c | c
        · subst c; rw [h2]; exact hnew
        · rw [h3 k c (by omega)]; exact hocc (k - 1) (by omega)
    · intro k hk1 hk2
      exact h4 k (by omega) (by omega)
  rw [e1, e2]
  have hl1 : ((t.take m).take i).length = i := by
    simp only [List.length_take]; omega
  apply table_ext
  · simp only [List.length_take, List.length_append, List.length_cons, List.length_drop]
    omega
  · intro k hk
    simp only [List.length_append, List.length_cons, List.length_take, List.length_drop] at hk
    rw [slot_take, slot_append, hl1]
    rw [if_pos (by omega)]
    rcases Nat.lt_or_ge k i with c | c
    · rw [if_pos c, slot_take, slot_take, if_pos c, if_pos (by omega), h1 k c]
    · rw [if_neg (by omega)]
      rcases Nat.eq_or_lt_of_le c with c | c
      · subst c
        rw [h2, Nat.sub_self, slot_cons_zero]
      · have e3 : k - i = (k - i - 1) + 1 := by omega
        rw [e3, slot_cons_succ, slot_drop, slot_take, if_pos (by omega), h3 k c (by omega)]
        congr 1
        omega

/-! Further concrete call sequences and helper facts. -/

theorem stale_gw_table_run :
    run_ops ip6_prefix_valid (init_table 2) stale_gw_ops = stale_gw_table := by
  decide

theorem prefix_match_self (p : ip6_prefix) (n g : Option Nat) :
    prefix_match p { pfx := p, netif := n, gateway := g } = true := by
  rw [prefix_match_iff]; exact ⟨rfl, rfl⟩

theorem static_route_all_empty (t : List ip6_route_entry) (src : Option ip6_addr_t)
    (dest : ip6_addr_t) (h : ∀ k, k < t.length → (slot t k).netif = none) :
    ip6_static_route t src dest = none := by
  have hall : ∀ k, (slot t k).netif = none := by
    intro k
    rcases Nat.lt_or_ge k t.length with c | c
    · exact h k c
    · rw [slot_of_ge c]; rfl
  unfold ip6_static_route
  simp only
  split
  · exact hall _
  · rfl

/-- The table after one insert into the empty table: the new entry in slot 0, the
other slots as at start. -/
theorem add_to_init (valid : Nat → Bool) (N : Nat) (p : ip6_prefix) (n g : Option Nat)
    (hN : 0 < N) (hv : valid p.prefix_len = true) (hn : n.isSome = true) :
    (ip6_add_route_entry valid (init_table N) p n g).err = err_t.ERR_OK ∧
      (ip6_add_route_entry valid (init_table N) p n g).index = some 0 ∧
      (ip6_add_route_entry valid (init_table N) p n g).table.length = N ∧
      slot (ip6_add_route_entry valid (init_table N) p n g).table 0 =
        { pfx := p, netif := n, gateway := g } ∧
      ∀ k, 0 < k → slot (ip6_add_route_entry valid (init_table N) p n g).table k =
        zero_entry := by
  have hlen : (init_table N).length = N := by simp [init_table]
  have hs8 : s8_of_int ((0 : Nat) : Int) = 0 := by decide
  rcases Nat.eq_zero_or_pos p.prefix_len with hp | hp
  · have hs : scan_from (prefix_match p) (init_table N) 0 = some 0 := by
      have := scan_from_first (c := prefix_match p) (init_table N) 0 0 (by omega)
        (by rw [slot_init]; exact prefix_match_zero_len p zero_entry hp rfl)
        (fun k hk => by omega)
      simpa using this
    rw [add_replace_case valid _ p n g 0 hv hn hs]
    refine ⟨rfl, ?_, by simp [add_insert_at, hlen], ?_, ?_⟩
    · simp only [add_insert_at]; rw [hs8]
    · simp only [add_insert_at]
      rw [slot_set, if_pos ⟨rfl, by omega⟩]
    · intro k hk
      simp only [add_insert_at]
      rw [slot_set, if_neg (by omega), slot_init]
  · have hs : scan_from (prefix_match p) (init_table N) 0 = none := by
      cases hs : scan_from (prefix_match p) (init_table N) 0 with
      | none => rfl
      | some i =>
        obtain ⟨-, -, hm, -⟩ := scan_from_some _ 0 i hs
        rw [slot_init] at hm
        have := ((prefix_match_iff p zero_entry).1 hm).1
        have hz : zero_entry.pfx.prefix_len = 0 := rfl
        omega
    have hl : (slot (init_table N) ((init_table N).length - 1)).netif.isSome = false := by
      rw [slot_init]; rfl
    rw [add_shift_case valid _ p n g hv hn hs hl]
    obtain ⟨i, hi, hidef, hlen', h1, h2, h3, h4, h5⟩ :=
      add_shift_case_spec (init_table N) p n g (by omega)
    rw [← hidef]
    have hi0 : i = 0 := by
      rcases h4 with h4 | h4
      · exact h4
      · rw [slot_init] at h4
        have hz : zero_entry.pfx.prefix_len = 0 := rfl
        omega
    subst hi0
    refine ⟨rfl, ?_, by rw [hlen', hlen], h2, ?_⟩
    · simp only [add_insert_at]; rw [hs8]
    · intro k hk
      rcases Nat.lt_or_ge k N with c | c
      · rw [h3 k hk (by omega), slot_init]
      · rw [slot_of_ge (by omega)]

/-! The claims C11 to C18. -/

/-- C11 (removal compaction): in every table reachable from the all-empty table, if
the prefix `p` matches the occupied slot `j`, then after `ip6_remove_route_entry`
for `p` the occupied slots are exactly the first `m` slots for some `m` (no gaps),
and every slot after them has a `NULL` netif and the zero address. -/
theorem remove_compacts (valid : Nat → Bool) (N : Nat) (t : List ip6_route_entry)
    (p : ip6_prefix) (j : Nat) (h : Reachable valid N t)
    (hj : j < t.length) (hocc : occupied (slot t j) = true)
    (hm : prefix_match p (slot t j) = true) :
    ∃ m, m ≤ (ip6_remove_route_entry t p).length ∧
      (∀ k, k < m → occupied (slot (ip6_remove_route_entry t p) k) = true) ∧
      (∀ k, m ≤ k → k < (ip6_remove_route_entry t p).length →
        (slot (ip6_remove_route_entry t p) k).netif = none ∧
          (slot (ip6_remove_route_entry t p) k).pfx.addr = ip6_addr_zero) := by
  obtain ⟨hz, hr⟩ := reachable_tail_inv h
  have hs := scan_finds_occupied (reachable_first_key h) p j hj hocc hm
  obtain ⟨e, he1, he2, hlen, h1, h2, h3, h4, h5⟩ := remove_found_spec t p j hs
  have hclear : ∀ k, e ≤ k → k < t.length →
      (slot (ip6_remove_route_entry t p) k).netif = none ∧
        (slot (ip6_remove_route_entry t p) k).pfx.addr = ip6_addr_zero := by
    intro k hk1 hk2
    rcases Nat.eq_or_lt_of_le hk1 with c | c
    · subst c
      by_cases hl : e + 1 < t.length
      · rw [(h3 hl).1]; exact ⟨rfl, rfl⟩
      · rw [h4 (by omega)]; exact ⟨rfl, rfl⟩
    · rw [h5 k c hk2]; exact ⟨rfl, rfl⟩
  rw [hlen]
  rcases first_empty_or_all t j with hall | ⟨k0, hk0, hk0e, hk0min⟩
  · refine ⟨e, by omega, ?_, hclear⟩
    intro k hk
    rcases Nat.lt_or_ge k j with c | c
    · rw [h1 k c]; exact hall k c
    · rw [(h2 k c hk).1]; exact (h2 k c hk).2
  · -- an empty slot in front of `j`: then `j` is the last slot
    have hjlast : j + 1 = t.length := by
      rcases Nat.lt_or_ge (j + 1) t.length with c | c
      · have := (empty_run_chain hr hk0e j (by omega) c).1
        rw [hocc] at this; exact absurd this (by simp)
      · omega
    have hej : e = j := by omega
    subst hej
    refine ⟨k0, by omega, ?_, ?_⟩
    · intro k hk
      rw [h1 k (by omega)]; exact hk0min k hk
    · intro k hk1 hk2
      rcases Nat.lt_or_ge k e with c | c
      · rw [h1 k c]
        have hemp := (empty_run_chain hr hk0e k hk1 (by omega)).1
        refine ⟨?_, hz k (by omega) hemp⟩
        simp only [occupied] at hemp
        cases hn : (slot t k).netif with
        | none => rfl
        | some v => rw [hn] at hemp; simp at hemp
      · exact hclear k c hk2

/-- Witness of C11: removing the default route from the reachable table
`lost_table`, whose slot 1 is empty. -/
theorem remove_compacts_witness :
    (Reachable ip6_prefix_valid 3 lost_table ∧ 2 < lost_table.length ∧
      occupied (slot lost_table 2) = true ∧
      prefix_match route_default.pfx (slot lost_table 2) = true) ∧
    (∃ m, m ≤ (ip6_remove_route_entry lost_table route_default.pfx).length ∧
      (∀ k, k < m →
        occupied (slot (ip6_remove_route_entry lost_table route_default.pfx) k) = true) ∧
      (∀ k, m ≤ k → k < (ip6_remove_route_entry lost_table route_default.pfx).length →
        (slot (ip6_remove_route_entry lost_table route_default.pfx) k).netif = none ∧
          (slot (ip6_remove_route_entry lost_table route_default.pfx) k).pfx.addr
            = ip6_addr_zero)) :=
  ⟨⟨⟨lost_ops, lost_table_run⟩, by decide, by decide, by decide⟩,
    remove_compacts ip6_prefix_valid 3 lost_table route_default.pfx 2
      ⟨lost_ops, lost_table_run⟩ (by decide) (by decide) (by decide)⟩

/-- C12 (remove deletes only its target), evaluated at the failing input: in the
reachable table `lost_table` the prefix `2001::/16` matches the occupied slot 0 and
the occupied entries are `2001::/16` and the default route; after
`ip6_remove_route_entry` for `2001::/16` no entry is occupied.  The shift loop
stops at the empty slot 1 and the zero loop then clears the default route in
slot 2. -/
theorem remove_drops_later_route :
    Reachable ip6_prefix_valid 3 lost_table ∧
      occupied (slot lost_table 0) = true ∧
      prefix_match route_16.pfx (slot lost_table 0) = true ∧
      entries lost_table = [route_16, route_default] ∧
      entries (ip6_remove_route_entry lost_table route_16.pfx) = [] :=
  ⟨⟨lost_ops, lost_table_run⟩, by decide, by decide, by decide, by decide⟩

/-- C13 (round trip on the empty table): for a valid prefix `p`, a non-null netif
`n`, a gateway `g` and an address `a` that agrees with `p` on the first
`prefix_len / 8` bytes, on the empty table of capacity `N ≥ 1`:
`ip6_add_route_entry` returns `ERR_OK`; `ip6_find_route_entry` for `a` returns the
index the insert reported; `ip6_get_gateway` for `a` returns `g`, whatever its
netif argument; and after `ip6_remove_route_entry` for `p`, `ip6_static_route` for
`a` returns `NULL`. -/
theorem round_trip (valid : Nat → Bool) (N : Nat) (p : ip6_prefix) (n g : Option Nat)
    (a : ip6_addr_t) (nif : Option Nat) (src : Option ip6_addr_t)
    (hN : 0 < N) (hv : valid p.prefix_len = true) (hn : n.isSome = true)
    (ha : memcmp_eq a p.addr (p.prefix_len / 8) = true) :
    (ip6_add_route_entry valid (init_table N) p n g).err = err_t.ERR_OK ∧
      (ip6_add_route_entry valid (init_table N) p n g).index =
        some (ip6_find_route_entry (ip6_add_route_entry valid (init_table N) p n g).table a) ∧
      ip6_get_gateway (ip6_add_route_entry valid (init_table N) p n g).table nif a = g ∧
      ip6_static_route
        (ip6_remove_route_entry (ip6_add_route_entry valid (init_table N) p n g).table p)
        src a = none := by
  obtain ⟨h1, h2, h3, h4, h5⟩ := add_to_init valid N p n g hN hv hn
  generalize (ip6_add_route_entry valid (init_table N) p n g) = R at *
  have hfind : ip6_find_route_entry R.table a = 0 := by
    have hs : scan_from (dest_match a) R.table 0 = some 0 := by
      have := scan_from_first (c := dest_match a) R.table 0 0 (by omega)
        (by rw [h4]; exact ha) (fun k hk => by omega)
      simpa using this
    simp only [ip6_find_route_entry, hs]
    rfl
  refine ⟨h1, by rw [h2, hfind], ?_, ?_⟩
  · unfold ip6_get_gateway
    simp only [hfind]
    have : (0 : Int).toNat = 0 := rfl
    rw [this, h4]
    cases g <;> rfl
  · have hs : scan_from (prefix_match p) R.table 0 = some 0 := by
      have := scan_from_first (c := prefix_match p) R.table 0 0 (by omega)
        (by rw [h4]; exact prefix_match_self p n g) (fun k hk => by omega)
      simpa using this
    obtain ⟨e, he1, he2, hlen, r1, r2, r3, r4, r5⟩ := remove_found_spec R.table p 0 hs
    have he0 : e = 0 := by
      rcases Nat.eq_zero_or_pos e with c | c
      · exact c
      · have := (r2 0 (le_refl _) c).2
        rw [h5 1 (by omega)] at this
        exact absurd this (by decide)
    subst he0
    apply static_route_all_empty
    intro k hk
    rw [hlen] at hk
    rcases Nat.eq_zero_or_pos k with c | c
    · subst c
      by_cases hl : 0 + 1 < R.table.length
      · rw [(r3 hl).1]; rfl
      · rw [r4 (by omega)]; rfl
    · rw [r5 k c hk]; rfl

/-- Witness of C13: `2001:db8:1::/48` with gateway 9 and the address
`2001:db8:1::1`, capacity 2. -/
theorem round_trip_witness :
    (0 < 2 ∧ ip6_prefix_valid route_48.pfx.prefix_len = true ∧ route_48.netif.isSome = true ∧
      memcmp_eq addr_2001_db8_1_1 route_48.pfx.addr (route_48.pfx.prefix_len / 8) = true) ∧
    ((ip6_add_route_entry ip6_prefix_valid (init_table 2) route_48.pfx route_48.netif
        (some 9)).err = err_t.ERR_OK ∧
      (ip6_add_route_entry ip6_prefix_valid (init_table 2) route_48.pfx route_48.netif
        (some 9)).index =
        some (ip6_find_route_entry (ip6_add_route_entry ip6_prefix_valid (init_table 2)
          route_48.pfx route_48.netif (some 9)).table addr_2001_db8_1_1) ∧
      ip6_get_gateway (ip6_add_route_entry ip6_prefix_valid (init_table 2) route_48.pfx
        route_48.netif (some 9)).table none addr_2001_db8_1_1 = some 9 ∧
      ip6_static_route
        (ip6_remove_route_entry (ip6_add_route_entry ip6_prefix_valid (init_table 2)
          route_48.pfx route_48.netif (some 9)).table route_48.pfx)
        none addr_2001_db8_1_1 = none) :=
  ⟨⟨by decide, by decide, by decide, by decide⟩,
    round_trip ip6_prefix_valid 2 route_48.pfx route_48.netif (some 9) addr_2001_db8_1_1
      none none (by decide) (by decide) (by decide) (by decide)⟩

/-- C14 (key uniqueness, I3): in every table reachable from the all-empty table, two
different occupied slots never have equal `prefix_len` and equal first
`prefix_len / 8` address bytes; in particular they never hold the same
(address, prefix_len) pair. -/
theorem key_unique (valid : Nat → Bool) (N : Nat) (t : List ip6_route_entry) (i j : Nat)
    (h : Reachable valid N t) (hi : i < t.length) (hj : j < t.length) (hij : i ≠ j)
    (hoi : occupied (slot t i) = true) (hoj : occupied (slot t j) = true) :
    ¬ ((slot t i).pfx.prefix_len = (slot t j).pfx.prefix_len ∧
        memcmp_eq (slot t i).pfx.addr (slot t j).pfx.addr
          ((slot t i).pfx.prefix_len / 8) = true) ∧
      (slot t i).pfx ≠ (slot t j).pfx := by
  have hfk := reachable_first_key h
  have key : prefix_match (slot t i).pfx (slot t j) = false := by
    rcases Nat.lt_or_ge i j with c | c
    · cases hc : prefix_match (slot t i).pfx (slot t j) with
      | false => rfl
      | true =>
        have h1 := prefix_match_symm (slot t i).netif (slot t i).gateway hc
        have h2 := hfk i j c hj hoj
        rw [prefix_match_pfx (slot t j).pfx (slot t i)
          { pfx := (slot t i).pfx, netif := (slot t i).netif,
            gateway := (slot t i).gateway } rfl, h1] at h2
        exact absurd h2 (by simp)
    · exact hfk j i (by omega) hi hoi
  constructor
  · intro hc
    have : prefix_match (slot t i).pfx (slot t j) = true := by
      obtain ⟨c1, c2⟩ := hc
      unfold prefix_match
      rw [c2, c1]
      simp
    rw [key] at this; exact absurd this (by simp)
  · intro heq
    have := prefix_match_self (slot t j).pfx (slot t j).netif (slot t j).gateway
    rw [heq, prefix_match_pfx (slot t j).pfx (slot t j)
      { pfx := (slot t j).pfx, netif := (slot t j).netif, gateway := (slot t j).gateway } rfl,
      this] at key
    exact absurd key (by simp)

/-- Witness of C14: slots 0 and 2 of the reachable table `lost_table`. -/
theorem key_unique_witness :
    (Reachable ip6_prefix_valid 3 lost_table ∧ 0 < lost_table.length ∧
      2 < lost_table.length ∧ 0 ≠ 2 ∧ occupied (slot lost_table 0) = true ∧
      occupied (slot lost_table 2) = true) ∧
    (¬ ((slot lost_table 0).pfx.prefix_len = (slot lost_table 2).pfx.prefix_len ∧
        memcmp_eq (slot lost_table 0).pfx.addr (slot lost_table 2).pfx.addr
          ((slot lost_table 0).pfx.prefix_len / 8) = true) ∧
      (slot lost_table 0).pfx ≠ (slot lost_table 2).pfx) :=
  ⟨⟨⟨lost_ops, lost_table_run⟩, by decide, by decide, by decide, by decide, by decide⟩,
    key_unique ip6_prefix_valid 3 lost_table 0 2 ⟨lost_ops, lost_table_run⟩ (by decide)
      (by decide) (by decide) (by decide) (by decide)⟩

/-- What the code does for an existing route: for a valid prefix and a non-null
netif, when some slot of the table already has the prefix (equal `prefix_len`,
equal first `prefix_len / 8` bytes), `ip6_add_route_entry` returns `ERR_OK`, not
`ERR_ARG`. -/
theorem add_existing_route_ok (valid : Nat → Bool) (t : List ip6_route_entry)
    (p : ip6_prefix) (n g : Option Nat) (k : Nat)
    (hv : valid p.prefix_len = true) (hn : n.isSome = true)
    (hk : k < t.length) (hm : prefix_match p (slot t k) = true) :
    (ip6_add_route_entry valid t p n g).err = err_t.ERR_OK ∧
      (ip6_add_route_entry valid t p n g).err ≠ err_t.ERR_ARG := by
  obtain ⟨i, hs⟩ := scan_from_of_exists (c := prefix_match p) t 0 k hk hm
  rw [add_replace_case valid t p n g i hv hn hs]
  exact ⟨rfl, by simp [add_insert_at]⟩

/-- An instance of `add_existing_route_ok`: `2001:db8::/32` added again to
`lpm_table`, with another netif. -/
theorem add_existing_route_ok_witness :
    (ip6_prefix_valid route_32.pfx.prefix_len = true ∧ (some 5 : Option Nat).isSome = true ∧
      1 < lpm_table.length ∧ prefix_match route_32.pfx (slot lpm_table 1) = true) ∧
    ((ip6_add_route_entry ip6_prefix_valid lpm_table route_32.pfx (some 5) none).err
        = err_t.ERR_OK ∧
      (ip6_add_route_entry ip6_prefix_valid lpm_table route_32.pfx (some 5) none).err
        ≠ err_t.ERR_ARG) :=
  ⟨⟨by decide, by decide, by decide, by decide⟩,
    add_existing_route_ok ip6_prefix_valid lpm_table route_32.pfx (some 5) none 1
      (by decide) (by decide) (by decide) (by decide)⟩

/-- C15 (documented return code for an existing route), evaluated at the failing
input: `lpm_table` is reachable and its occupied slot 1 holds `2001:db8::/32`;
adding that route again, with a valid length and a non-null netif, returns `ERR_OK`
and leaves the table as it is, where the `@return` line of the function's comment
documents `ERR_ARG` for a route that already exists. -/
theorem add_existing_route_not_err_arg :
    Reachable ip6_prefix_valid 2 lpm_table ∧
      ip6_prefix_valid route_32.pfx.prefix_len = true ∧ route_32.netif.isSome = true ∧
      occupied (slot lpm_table 1) = true ∧ (slot lpm_table 1).pfx = route_32.pfx ∧
      (ip6_add_route_entry ip6_prefix_valid lpm_table route_32.pfx route_32.netif
        route_32.gateway).err = err_t.ERR_OK ∧
      ¬ ((ip6_add_route_entry ip6_prefix_valid lpm_table route_32.pfx route_32.netif
        route_32.gateway).err = err_t.ERR_ARG) ∧
      (ip6_add_route_entry ip6_prefix_valid lpm_table route_32.pfx route_32.netif
        route_32.gateway).table = lpm_table :=
  ⟨⟨_, lpm_table_run⟩, by decide, by decide, by decide, by decide, by decide, by decide,
    by decide⟩

/-- C16 (insertion position and tie order): let the occupied slots of `t` be its
first `m` slots, `m < N ≤ 128` (so the last slot is empty), and let every empty slot
have `prefix_len` 0.  For a valid prefix `p` that no occupied slot matches and a
non-null netif, `ip6_add_route_entry` returns `ERR_OK` and reports an index `i`
such that slot `i` holds the new entry; the new sequence of occupied entries is the
old one with the new entry put in at position `i`, the old entries in their order;
and `i` comes right after the last old entry whose `prefix_len` is at least that of
`p`: entry `i - 1` has such a length (or `i = 0`) and every old entry from position
`i` on has a smaller one. -/
theorem add_new_position (valid : Nat → Bool) (t : List ip6_route_entry) (p : ip6_prefix)
    (n g : Option Nat) (m : Nat) (hN8 : t.length ≤ 128) (hm : m < t.length)
    (hocc : ∀ k, k < m → occupied (slot t k) = true)
    (hemp : ∀ k, m ≤ k → k < t.length →
      occupied (slot t k) = false ∧ (slot t k).pfx.prefix_len = 0)
    (hv : valid p.prefix_len = true) (hn : n.isSome = true)
    (hno : ∀ k, k < m → prefix_match p (slot t k) = false) :
    ∃ i : Nat, i ≤ m ∧
      (ip6_add_route_entry valid t p n g).err = err_t.ERR_OK ∧
      (ip6_add_route_entry valid t p n g).index = some (i : Int) ∧
      slot (ip6_add_route_entry valid t p n g).table i =
        { pfx := p, netif := n, gateway := g } ∧
      entries (ip6_add_route_entry valid t p n g).table =
        (entries t).take i ++
          { pfx := p, netif := n, gateway := g } :: (entries t).drop i ∧
      (i = 0 ∨ p.prefix_len ≤ (slot (entries t) (i - 1)).pfx.prefix_len) ∧
      (∀ k, i ≤ k → k < (entries t).length →
        (slot (entries t) k).pfx.prefix_len < p.prefix_len) := by
  have hempo : ∀ k, m ≤ k → k < t.length → occupied (slot t k) = false :=
    fun k h1 h2 => (hemp k h1 h2).1
  have hent : entries t = t.take m := entries_of_prefix t m (by omega) hocc hempo
  have hentlen : (entries t).length = m := by
    rw [hent, List.length_take]; omega
  have hents : ∀ k, k < m → slot (entries t) k = slot t k := by
    intro k hk
    rw [hent, slot_take, if_pos hk]
  have hnew : occupied ({ pfx := p, netif := n, gateway := g } : ip6_route_entry) = true := hn
  cases hs : scan_from (prefix_match p) t 0 with
  | some i0 =>
    obtain ⟨-, hi0, hm0, hfirst⟩ := scan_from_some t 0 i0 hs
    simp only [Nat.sub_zero] at hi0 hm0 hfirst
    have hge : m ≤ i0 := by
      rcases Nat.lt_or_ge i0 m with c | c
      · rw [hno i0 c] at hm0; exact absurd hm0 (by simp)
      · exact c
    have hp0 : p.prefix_len = 0 := by
      rw [((prefix_match_iff p (slot t i0)).1 hm0).1]
      exact (hemp i0 hge hi0).2
    have hi0m : i0 = m := by
      rcases Nat.eq_or_lt_of_le hge with c | c
      · exact c.symm
      · have := hfirst m c
        rw [prefix_match_zero_len p (slot t m) hp0 (hemp m (le_refl _) hm).2] at this
        exact absurd this (by simp)
    subst hi0m
    rw [add_replace_case valid t p n g i0 hv hn hs]
    refine ⟨i0, le_refl _, rfl, ?_, ?_, ?_, Or.inr (by omega), ?_⟩
    · simp only [add_insert_at]
      rw [s8_of_int_small i0 (by omega)]
    · simp only [add_insert_at]
      rw [slot_set, if_pos ⟨rfl, hi0⟩]
    · simp only [add_insert_at]
      apply entries_insert t _ _ i0 i0 hm (le_refl _) (by simp) hnew hocc hempo
      · intro k hk
        rw [slot_set, if_neg (by omega)]
      · rw [slot_set, if_pos ⟨rfl, hi0⟩]
      · intro k hk1 hk2; omega
      · intro k hk1 hk2
        rw [slot_set, if_neg (by omega)]
        exact hempo k (by omega) hk2
    · intro k hk1 hk2; omega
  | none =>
    have hnone := scan_from_none t 0 hs
    have hpne : p.prefix_len ≠ 0 := by
      intro hp0
      have := hnone m hm
      rw [prefix_match_zero_len p (slot t m) hp0 (hemp m (le_refl _) hm).2] at this
      exact absurd this (by simp)
    have hl : (slot t (t.length - 1)).netif.isSome = false :=
      hempo (t.length - 1) (by omega) (by omega)
    rw [add_shift_case valid t p n g hv hn hs hl]
    obtain ⟨i, hi, hidef, hlen, h1, h2, h3, h4, h5⟩ :=
      add_shift_case_spec t p n g (by omega)
    rw [← hidef]
    have him : i ≤ m := by
      rcases Nat.lt_or_ge m i with c | c
      · exfalso
        rcases h4 with h4 | h4
        · omega
        · rw [(hemp (i - 1) (by omega) (by omega)).2] at h4
          omega
      · exact c
    refine ⟨i, him, rfl, ?_, h2, ?_, ?_, ?_⟩
    · simp only [add_insert_at]
      rw [s8_of_int_small i (by omega)]
    · apply entries_insert t _ _ m i hm him hlen hnew hocc hempo h1 h2
      · intro k hk1 hk2
        exact h3 k hk1 (by omega)
      · intro k hk1 hk2
        rw [h3 k (by omega) hk2]
        exact hempo (k - 1) (by omega) (by omega)
    · rcases h4 with h4 | h4
      · exact Or.inl h4
      · rcases Nat.eq_zero_or_pos i with c | c
        · exact Or.inl c
        · right
          rw [hents (i - 1) (by omega)]
          exact h4
    · intro k hk1 hk2
      rw [hentlen] at hk2
      rw [hents k hk2]
      exact h5 k hk1 (by omega)

/-- Witness of C16: `fc00::/8` added to `tie_table`, which holds `2001::/16` and
`fd00::/8`: the new entry goes after the entry of equal length. -/
theorem add_new_position_witness :
    (tie_table.length ≤ 128 ∧ 2 < tie_table.length ∧
      (∀ k, k < 2 → occupied (slot tie_table k) = true) ∧
      (∀ k, 2 ≤ k → k < tie_table.length →
        occupied (slot tie_table k) = false ∧ (slot tie_table k).pfx.prefix_len = 0) ∧
      ip6_prefix_valid route_8b.pfx.prefix_len = true ∧ route_8b.netif.isSome = true ∧
      (∀ k, k < 2 → prefix_match route_8b.pfx (slot tie_table k) = false)) ∧
    (∃ i : Nat, i ≤ 2 ∧
      (ip6_add_route_entry ip6_prefix_valid tie_table route_8b.pfx route_8b.netif
        route_8b.gateway).err = err_t.ERR_OK ∧
      (ip6_add_route_entry ip6_prefix_valid tie_table route_8b.pfx route_8b.netif
        route_8b.gateway).index = some (i : Int) ∧
      slot (ip6_add_route_entry ip6_prefix_valid tie_table route_8b.pfx route_8b.netif
        route_8b.gateway).table i =
        { pfx := route_8b.pfx, netif := route_8b.netif, gateway := route_8b.gateway } ∧
      entries (ip6_add_route_entry ip6_prefix_valid tie_table route_8b.pfx
        route_8b.netif route_8b.gateway).table =
        (entries tie_table).take i ++
          { pfx := route_8b.pfx, netif := route_8b.netif, gateway := route_8b.gateway } ::
            (entries tie_table).drop i ∧
      (i = 0 ∨
        route_8b.pfx.prefix_len ≤ (slot (entries tie_table) (i - 1)).pfx.prefix_len) ∧
      (∀ k, i ≤ k → k < (entries tie_table).length →
        (slot (entries tie_table) k).pfx.prefix_len < route_8b.pfx.prefix_len)) ∧
    entries (ip6_add_route_entry ip6_prefix_valid tie_table route_8b.pfx
      route_8b.netif route_8b.gateway).table = [route_16, route_8, route_8b] :=
  ⟨⟨by decide, by decide, by decide, by decide, by decide, by decide, by decide⟩,
    add_new_position ip6_prefix_valid tie_table route_8b.pfx route_8b.netif
      route_8b.gateway 2 (by decide) (by decide) (by decide) (by decide) (by decide)
      (by decide) (by decide),
    by decide⟩

/-- C17 (no stale gateway), evaluated at the failing input: in the reachable table
`stale_gw_table`, for the destination `::1`, `ip6_static_route` returns `NULL` but
`ip6_get_gateway` returns the gateway handle 7 of the removed route
`2001:db8::/32`: the empty slot 1 still holds that gateway. -/
theorem stale_gateway_returned :
    Reachable ip6_prefix_valid 2 stale_gw_table ∧
      ip6_static_route stale_gw_table none addr_loopback = none ∧
      ip6_get_gateway stale_gw_table none addr_loopback = some 7 ∧
      occupied (slot stale_gw_table 1) = false ∧
      (slot stale_gw_table 1).gateway = some 7 :=
  ⟨⟨stale_gw_ops, stale_gw_table_run⟩, by decide, by decide, by decide, by decide⟩

/-- C18 (gateway resolution is purely prefix-based): for every table and
destination, `ip6_get_gateway` gives the same result for any two netif arguments;
when `ip6_find_route_entry` returns the index `i` the result is the gateway field
of slot `i`; when it returns a negative value (-1, not found) the result is `NULL`.
For a capacity of at most 128 the lookup returns -1 or an index of the table. -/
theorem gateway_prefix_based (t : List ip6_route_entry) (dest : ip6_addr_t) :
    (∀ n1 n2 : Option Nat, ip6_get_gateway t n1 dest = ip6_get_gateway t n2 dest) ∧
      (∀ (nif : Option Nat) (i : Nat), ip6_find_route_entry t dest = (i : Int) →
        ip6_get_gateway t nif dest = (slot t i).gateway) ∧
      (∀ nif : Option Nat, ip6_find_route_entry t dest < 0 →
        ip6_get_gateway t nif dest = none) ∧
      (t.length ≤ 128 → ip6_find_route_entry t dest = -1 ∨
        ∃ i : Nat, i < t.length ∧ ip6_find_route_entry t dest = (i : Int)) := by
  refine ⟨fun _ _ => rfl, ?_, ?_, ?_⟩
  · intro nif i hi
    unfold ip6_get_gateway
    simp only [hi]
    have h0 : (i : Int) ≥ 0 := Int.natCast_nonneg i
    rw [if_pos h0, Int.toNat_natCast]
    cases (slot t i).gateway <;> rfl
  · intro nif hi
    unfold ip6_get_gateway
    simp only
    rw [if_neg (by omega)]
  · intro hlen
    unfold ip6_find_route_entry
    cases hs : scan_from (dest_match dest) t 0 with
    | none => left; rfl
    | some i =>
      right
      obtain ⟨-, hi, -, -⟩ := scan_from_some t 0 i hs
      simp only [Nat.sub_zero] at hi
      exact ⟨i, hi, s8_of_int_small i (by omega)⟩

end Ip6RouteTable
